import Mathlib

/-! Model reconstruction trail.

A shallow embedding of `src/ast/simplifiers/model_reconstruction_trail.cpp`
(`model_reconstruction_trail::replay` and
`model_reconstruction_trail::get_model_converter`) together with the
properties stated about it.

The term representation, the dependency join, the free-variable collector and
the rewrite engine are external to the file; they are carried by a record of
collaborators, so every general theorem holds for any implementation of them.
A small concrete term language instantiates the record for the scenarios.
-/

set_option linter.unusedSectionVars false

namespace ModelReconstructionTrail

/-! ## Data model -/

/-- Modelled from the spec: `dependent_expr` (its class is not among the
sources), the pair of a formula and the justification it depends on. -/
structure dependent_expr (Term Dep : Type) where
  fml : Term
  dep : Dep
deriving DecidableEq, Repr

/-- Modelled from the spec: `expr_substitution` (its class is not among the
sources). A finite mapping from variable to (definition, justification), kept
as the sequence of its triples in iteration order. -/
abbrev expr_substitution (Term Var Dep : Type) := List (Var × Term × Dep)

/-- Modelled from the spec: the collaborators the trail consumes (section 6):
the free-variable collector, the rewrite operation, the dependency join and
the null dependency. -/
structure Collaborators (Term Var Dep : Type) where
  freeVars : Term → List Var
  rewrite : expr_substitution Term Var Dep → Term → Term × Dep
  mk_join : Dep → Dep → Dep
  null : Dep

section Generic

variable {Term Var Dep : Type} [DecidableEq Var]

/-- Modelled from the spec: `expr_substitution::sub()`, the
(variable, definition) pairs in iteration order. -/
def expr_substitution.sub (s : expr_substitution Term Var Dep) : List (Var × Term) :=
  s.map (fun e => (e.1, e.2.1))

/-- Modelled from the spec: `expr_substitution::dep(v)`, the `dependencyOf`
lookup; the null dependency when `v` is not mapped. -/
def expr_substitution.dep (null : Dep) (s : expr_substitution Term Var Dep) (v : Var) : Dep :=
  match s.find? (fun e => decide (e.1 = v)) with
  | some e => e.2.2
  | none => null

/-- Modelled from the spec: `expr_substitution::insert`; a variable appears at
most once and insertion overwrites. -/
def expr_substitution.insert (s : expr_substitution Term Var Dep) (v : Var) (de : Term)
    (dp : Dep) : expr_substitution Term Var Dep :=
  if s.any (fun e => decide (e.1 = v)) then
    s.map (fun e => if e.1 = v then (v, de, dp) else e)
  else
    s ++ [(v, de, dp)]

/-- The substituted variables of a substitution. -/
def expr_substitution.keys (s : expr_substitution Term Var Dep) : List Var :=
  s.map (fun e => e.1)

/-- Modelled from the spec: a trail entry (its declaration is in the header,
which is not among the sources): a substitution step with its `rigid` tag, the
formulas it removed and its backtrackable `active` flag. The entry's replacer
`m_replace` is the rewrite operation bound to `m_subst`. -/
structure entry (Term Var Dep : Type) where
  m_subst : expr_substitution Term Var Dep
  rigid : Bool
  m_removed : List (dependent_expr Term Dep)
  m_active : Bool
deriving DecidableEq, Repr

/-- Modelled from the spec: `entry::is_loose`, a step that is not rigid. -/
def entry.is_loose (t : entry Term Var Dep) : Bool := !t.rigid

/-- Modelled from the spec: `entry::intersects`, some substituted variable of
the entry is marked in `free_vars`. -/
def entry.intersects (t : entry Term Var Dep) (free_vars : List Var) : Bool :=
  t.m_subst.sub.any (fun kv => decide (kv.1 ∈ free_vars))

/-- Modelled from the spec: the replacer `m_replace` of an entry (declared in
the header, which is not among the sources) is the rewrite operation bound to
the entry's `m_subst`. With it, the body of the loop at lines 50-56: rewrite
the formula and join the old dependency with the dependency of the rewrite. -/
def entry.apply (K : Collaborators Term Var Dep) (t : entry Term Var Dep)
    (d : dependent_expr Term Dep) : dependent_expr Term Dep :=
  let f := d.fml
  let dep1 := d.dep
  let r := K.rewrite t.m_subst f
  ⟨r.1, K.mk_join dep1 r.2⟩

/-- Modelled from the spec: the undo record `value_trail(t->m_active)` (its
class is not among the sources): which flag is changed (the position of its
entry in the trail) and the value it had before. -/
structure value_trail where
  idx : Nat
  old : Bool
deriving DecidableEq, Repr

/-- Modelled from the spec: the state of the trail object (the class is
declared in the header, which is not among the sources): the entries `m_trail`
in chronological order, the undo log of the scope stack `m_trail_stack` and
the marks of its open scopes. -/
structure model_reconstruction_trail (Term Var Dep : Type) where
  m_trail : List (entry Term Var Dep)
  m_trail_stack : List value_trail
  m_scopes : List Nat
deriving DecidableEq, Repr

/-- Modelled from the spec: `add_vars`, mark the free variables of the formula
of `d` in `free_vars`. -/
def add_vars (K : Collaborators Term Var Dep) (d : dependent_expr Term Dep)
    (free_vars : List Var) : List Var :=
  free_vars ++ K.freeVars d.fml

/-! ## replay -/

/-- Local state of the loop of `replay`. -/
structure replay_state (Term Var Dep : Type) where
  free_vars : List Var
  added : List (dependent_expr Term Dep)
  m_trail_stack : List value_trail
deriving DecidableEq, Repr

/-- One iteration of `for (auto& t : m_trail)` in `replay` (lines 29-57), for
the entry `t` at position `i`. Returns the entry as the iteration leaves it
and the updated loop state. -/
def replay_step (K : Collaborators Term Var Dep) (i : Nat) (t : entry Term Var Dep)
    (s : replay_state Term Var Dep) : entry Term Var Dep × replay_state Term Var Dep :=
  if !t.m_active then (t, s)
  else if !t.intersects s.free_vars then (t, s)
  else if t.is_loose then
    ({ t with m_active := false },
     { free_vars := t.m_removed.foldl (fun fv r => add_vars K r fv) s.free_vars
       added := s.added ++ t.m_removed
       m_trail_stack := s.m_trail_stack ++ [⟨i, t.m_active⟩] })
  else
    (t, { s with added := s.added.map (entry.apply K t) })

/-- The loop of `replay` over the entries from position `i` on. -/
def replay_loop (K : Collaborators Term Var Dep) :
    Nat → List (entry Term Var Dep) → replay_state Term Var Dep →
    List (entry Term Var Dep) × replay_state Term Var Dep
  | _, [], s => ([], s)
  | i, t :: ts, s =>
    let r := replay_step K i t s
    let rs := replay_loop K (i + 1) ts r.2
    (r.1 :: rs.1, rs.2)

/-- `model_reconstruction_trail::replay` (lines 20-58): returns the trail after
the call and the vector `added`. -/
def replay (K : Collaborators Term Var Dep) (self : model_reconstruction_trail Term Var Dep)
    (d : dependent_expr Term Dep) (added : List (dependent_expr Term Dep)) :
    model_reconstruction_trail Term Var Dep × List (dependent_expr Term Dep) :=
  let free_vars := add_vars K d []
  let added := added ++ [d]
  let r := replay_loop K 0 self.m_trail ⟨free_vars, added, self.m_trail_stack⟩
  ({ self with m_trail := r.1, m_trail_stack := r.2.m_trail_stack }, r.2.added)

/-! ## get_model_converter -/

/-- Local state of `get_model_converter`: the flag `first`, the accumulating
substitution `subst` and the entries added to the generic model converter. -/
structure converter_state (Term Var Dep : Type) where
  first : Bool
  subst : expr_substitution Term Var Dep
  mc : List (Var × Term)
deriving DecidableEq, Repr

/-- Body of the loop at lines 84-88 for the pair `kv` of `t->m_subst->sub()`:
the triple is inserted into `subst` as it is and the pair is added to the model
converter. -/
def verbatim_step (K : Collaborators Term Var Dep) (t : entry Term Var Dep)
    (st : converter_state Term Var Dep) (kv : Var × Term) : converter_state Term Var Dep :=
  let dep := t.m_subst.dep K.null kv.1
  { st with subst := st.subst.insert kv.1 kv.2 dep, mc := st.mc ++ [(kv.1, kv.2)] }

/-- Loop of lines 84-88: the triples of the first active entry met are
inserted as they are. -/
def insert_verbatim (K : Collaborators Term Var Dep) (t : entry Term Var Dep)
    (s : converter_state Term Var Dep) : converter_state Term Var Dep :=
  t.m_subst.sub.foldl (verbatim_step K t) s

/-- Body of the loop at lines 94-100 for the pair `kv` of `t->m_subst->sub()`:
the definition is rewritten by the replacer bound to the current `subst`, the
dependency of the rewrite is joined with the stored one, and the result is
inserted into `subst` and added to the model converter. -/
def resolved_step (K : Collaborators Term Var Dep) (t : entry Term Var Dep)
    (st : converter_state Term Var Dep) (kv : Var × Term) : converter_state Term Var Dep :=
  let r := K.rewrite st.subst kv.2
  let new_def := r.1
  let dep := t.m_subst.dep K.null kv.1
  let new_dep := K.mk_join dep r.2
  { st with subst := st.subst.insert kv.1 new_def new_dep, mc := st.mc ++ [(kv.1, new_def)] }

/-- Loop of lines 94-100: each definition is rewritten by the replacer bound
to the current `subst` before it is inserted. -/
def insert_resolved (K : Collaborators Term Var Dep) (t : entry Term Var Dep)
    (s : converter_state Term Var Dep) : converter_state Term Var Dep :=
  t.m_subst.sub.foldl (resolved_step K t) s

/-- One iteration of the loop at line 77 for the entry `t`. -/
def converter_step (K : Collaborators Term Var Dep) (s : converter_state Term Var Dep)
    (t : entry Term Var Dep) : converter_state Term Var Dep :=
  if !t.m_active then s
  else if s.first then insert_verbatim K t { s with first := false }
  else insert_resolved K t s

/-- The loop at line 77: the trail is walked from the back. -/
def converter_loop (K : Collaborators Term Var Dep) (trail : List (entry Term Var Dep)) :
    converter_state Term Var Dep :=
  trail.reverse.foldl (converter_step K) ⟨true, [], []⟩

/-- `model_reconstruction_trail::get_model_converter` (lines 63-105): returns
the trail after the call and the entries of the generic model converter. -/
def get_model_converter (K : Collaborators Term Var Dep)
    (self : model_reconstruction_trail Term Var Dep) :
    model_reconstruction_trail Term Var Dep × List (Var × Term) :=
  (self, (converter_loop K self.m_trail).mc)

/-- The substitution `subst` accumulated by `get_model_converter` when it
returns. -/
def get_model_converter_subst (K : Collaborators Term Var Dep)
    (self : model_reconstruction_trail Term Var Dep) : expr_substitution Term Var Dep :=
  (converter_loop K self.m_trail).subst

/-! ## Scopes -/

/-- Set the `active` flag of the entry at position `i`. -/
def set_active : List (entry Term Var Dep) → Nat → Bool → List (entry Term Var Dep)
  | [], _, _ => []
  | t :: ts, 0, b => { t with m_active := b } :: ts
  | t :: ts, i + 1, b => t :: set_active ts i b

/-- Modelled from the spec: undoing one record of the undo log restores the
recorded flag to its previous value. -/
def undo (trail : List (entry Term Var Dep)) (r : value_trail) : List (entry Term Var Dep) :=
  set_active trail r.idx r.old

/-- Modelled from the spec: the scope stack's push (its class is not among the
sources), "mark log length". -/
def push_scope (self : model_reconstruction_trail Term Var Dep) :
    model_reconstruction_trail Term Var Dep :=
  { self with m_scopes := self.m_scopes ++ [self.m_trail_stack.length] }

/-- Modelled from the spec: the scope stack's pop (its class is not among the
sources), "replay log in reverse back to mark". Without an open scope nothing
is undone. -/
def pop_scope (self : model_reconstruction_trail Term Var Dep) :
    model_reconstruction_trail Term Var Dep :=
  match self.m_scopes.getLast? with
  | none => self
  | some mark =>
    { m_trail := (self.m_trail_stack.drop mark).reverse.foldl undo self.m_trail
      m_trail_stack := self.m_trail_stack.take mark
      m_scopes := self.m_scopes.dropLast }

/-- A sequence of `replay` calls, each with its own formula and its own
incoming vector `added`; the state of the trail after the last of them. -/
def replay_all (K : Collaborators Term Var Dep) (self : model_reconstruction_trail Term Var Dep)
    (calls : List (dependent_expr Term Dep × List (dependent_expr Term Dep))) :
    model_reconstruction_trail Term Var Dep :=
  calls.foldl (fun st c => (replay K st c.1 c.2).1) self

/-- State of the loop of `replay` immediately after it has processed the
first `n` entries of the trail. -/
def replay_after (K : Collaborators Term Var Dep) (self : model_reconstruction_trail Term Var Dep)
    (d : dependent_expr Term Dep) (added : List (dependent_expr Term Dep)) (n : Nat) :
    replay_state Term Var Dep :=
  (replay_loop K 0 (self.m_trail.take n) ⟨add_vars K d [], added ++ [d], self.m_trail_stack⟩).2

/-- The entries for which the loop of `replay`, run over the entries from
position `i` on, reaches lines 48-56: those active, intersecting the variables
marked when they are visited, and rigid; in trail order. -/
def rigid_processed (K : Collaborators Term Var Dep) :
    Nat → List (entry Term Var Dep) → replay_state Term Var Dep → List (entry Term Var Dep)
  | _, [], _ => []
  | i, t :: ts, s =>
    if t.m_active && t.intersects s.free_vars && t.rigid then
      t :: rigid_processed K (i + 1) ts (replay_step K i t s).2
    else
      rigid_processed K (i + 1) ts (replay_step K i t s).2

/-- The entries a call deactivated: those active in the trail before the call
whose counterpart in the trail after the call is inactive. -/
def deactivated (before after : List (entry Term Var Dep)) : List (entry Term Var Dep) :=
  ((before.zip after).filter (fun p => p.1.m_active && !p.2.m_active)).map Prod.fst

/-- The trail with the `removed` set of every entry emptied. -/
def without_removed (self : model_reconstruction_trail Term Var Dep) :
    model_reconstruction_trail Term Var Dep :=
  { self with m_trail := self.m_trail.map (fun t => { t with m_removed := [] }) }

/-- Rewriting of a dependent expression by a sequence of entries, one after the
other, each as in lines 50-56. -/
def apply_all (K : Collaborators Term Var Dep) (ts : List (entry Term Var Dep))
    (d : dependent_expr Term Dep) : dependent_expr Term Dep :=
  ts.foldl (fun e t => entry.apply K t e) d

/-- The rewrite operation "substitutes every occurrence of every
mapped variable" (section 6), stated on free variables: a variable free in the result
is either free in the input and not mapped, or free in the definition of a
mapped variable that is free in the input. -/
def SubstitutesEvery (K : Collaborators Term Var Dep) : Prop :=
  ∀ (s : expr_substitution Term Var Dep) (f : Term) (x : Var),
    x ∈ K.freeVars (K.rewrite s f).1 →
      (x ∈ K.freeVars f ∧ x ∉ s.keys) ∨
      ∃ e ∈ s, e.1 ∈ K.freeVars f ∧ x ∈ K.freeVars e.2.1

/-- No definition of `t` contains a variable substituted by `u`. -/
def mentions_none (K : Collaborators Term Var Dep) (u t : entry Term Var Dep) : Prop :=
  ∀ e ∈ t.m_subst, ∀ k ∈ u.m_subst.keys, k ∉ K.freeVars e.2.1

/-- Eliminations follow the chronological order: no definition of an active
entry contains a variable substituted by that entry or by an older active
entry (an eliminated variable does not reappear in later steps). -/
def Chronological (K : Collaborators Term Var Dep) (trail : List (entry Term Var Dep)) : Prop :=
  (∀ t ∈ trail, t.m_active = true → mentions_none K t t) ∧
  trail.Pairwise (fun u t => u.m_active = true → t.m_active = true → mentions_none K u t)

/-- No definition stored in the substitution contains a variable substituted
by an active entry of `L`. -/
def AvoidsKeysOf (K : Collaborators Term Var Dep) (L : List (entry Term Var Dep))
    (S : expr_substitution Term Var Dep) : Prop :=
  ∀ e ∈ S, ∀ u ∈ L, u.m_active = true → ∀ k ∈ u.m_subst.keys, k ∉ K.freeVars e.2.1

/-- The keys of `subst` are free of duplicates and are the variables of the
pairs added to the model converter. -/
def KeysAgree (s : converter_state Term Var Dep) : Prop :=
  s.subst.keys.Nodup ∧ ∀ k, k ∈ s.subst.keys ↔ k ∈ s.mc.map Prod.fst

/-- Full resolution (P4): no definition stored in the substitution contains
a variable that is a key of the substitution. -/
def FullyResolved (K : Collaborators Term Var Dep) (S : expr_substitution Term Var Dep) : Prop :=
  ∀ e ∈ S, ∀ k ∈ S.keys, k ∉ K.freeVars e.2.1

end Generic

/-! ## A concrete term language -/

/-- Modelled from the spec: terms (the `expr` class is not among the
sources): variables, numerals and binary applications of an operator symbol. -/
inductive expr where
  | var : Nat → expr
  | num : Nat → expr
  | app : Nat → expr → expr → expr
deriving DecidableEq, Repr

/-- Modelled from the spec: `freeVariablesOf`, the variables occurring in a
term. -/
def expr.vars : expr → List Nat
  | .var n => [n]
  | .num _ => []
  | .app _ a b => a.vars ++ b.vars

/-- Modelled from the spec: the rewrite operation; every occurrence of every
mapped variable is replaced by its definition, and the dependencies of
the definitions used are joined. Dependencies are sets of assumption labels kept
as bit masks, their join is the bitwise or and the null dependency is 0. -/
def expr.replace (s : expr_substitution expr Nat Nat) : expr → expr × Nat
  | .var n =>
    match s.find? (fun e => decide (e.1 = n)) with
    | some e => (e.2.1, e.2.2)
    | none => (.var n, 0)
  | .num k => (.num k, 0)
  | .app f a b => (.app f (a.replace s).1 (b.replace s).1, (a.replace s).2 ||| (b.replace s).2)

/-- Modelled from the spec: the collaborators over the concrete term language. -/
def K0 : Collaborators expr Nat Nat :=
  { freeVars := expr.vars
    rewrite := expr.replace
    mk_join := fun a b => a ||| b
    null := 0 }

/-- The term `a + b`. -/
def mk_add (a b : expr) : expr := .app 0 a b
/-- The atom `a > b`. -/
def mk_gt (a b : expr) : expr := .app 1 a b
/-- The atom `a < b`. -/
def mk_lt (a b : expr) : expr := .app 2 a b
/-- The atom `a = b`. -/
def mk_eq (a b : expr) : expr := .app 3 a b

/-- Variables of the scenarios: `x`, `a`, `y`, `z` are 0, 1, 2, 3. -/
def vx : Nat := 0
/-- The variable `a`. -/
def va : Nat := 1
/-- The variable `y`. -/
def vy : Nat := 2
/-- The variable `z`. -/
def vz : Nat := 3

/-- A trail state with the given entries, an empty undo log and no open scope. -/
def mk_trail (ts : List (entry expr Nat Nat)) : model_reconstruction_trail expr Nat Nat :=
  { m_trail := ts, m_trail_stack := [], m_scopes := [] }

/-- Scenario A: the trail [rigid: x -> a+1], the definition depending on label 1. -/
def trailA : model_reconstruction_trail expr Nat Nat :=
  mk_trail [⟨[(vx, mk_add (.var va) (.num 1), 1)], true, [], true⟩]

/-- The formula `x > 0` depending on label 2. -/
def dA : dependent_expr expr Nat := ⟨mk_gt (.var vx) (.num 0), 2⟩

/-- The formula `a > 0` depending on label 2; `a` is substituted by no entry
of `trailA`. -/
def dFree : dependent_expr expr Nat := ⟨mk_gt (.var va) (.num 0), 2⟩

/-- A loose entry `y -> 5` that removed `y < z`, followed by a rigid entry
`z -> 3`. -/
def trailLooseRigid : model_reconstruction_trail expr Nat Nat :=
  mk_trail [⟨[(vy, .num 5, 1)], false, [⟨mk_lt (.var vy) (.var vz), 4⟩], true⟩,
            ⟨[(vz, .num 3, 8)], true, [], true⟩]

/-- A rigid entry substituting two variables, `x -> a` and `y -> x`. -/
def entryTwoVars : entry expr Nat Nat :=
  ⟨[(vx, .var va, 1), (vy, .var vx, 4)], true, [], true⟩

/-- The trail holding `entryTwoVars` alone. -/
def trailTwoVars : model_reconstruction_trail expr Nat Nat := mk_trail [entryTwoVars]

/-- The formula `x > y` depending on label 2. -/
def dXY : dependent_expr expr Nat := ⟨mk_gt (.var vx) (.var vy), 2⟩

/-- An older entry `y -> 2` followed by a newer entry `x -> y+1`
whose definition mentions the variable the older entry substituted. -/
def trailOutOfOrder : model_reconstruction_trail expr Nat Nat :=
  mk_trail [⟨[(vy, .num 2, 1)], true, [], true⟩,
            ⟨[(vx, mk_add (.var vy) (.num 1), 4)], true, [], true⟩]

/-- Scenario C: the older entry `x -> y+1` followed by the newer entry `y -> 2`. -/
def trailC : model_reconstruction_trail expr Nat Nat :=
  mk_trail [⟨[(vx, mk_add (.var vy) (.num 1), 4)], true, [], true⟩,
            ⟨[(vy, .num 2, 1)], true, [], true⟩]

/-- Two active entries that both define `x`: the older `x -> 1`, the newer
`x -> 2`. -/
def trailTwice : model_reconstruction_trail expr Nat Nat :=
  mk_trail [⟨[(vx, .num 1, 1)], true, [], true⟩,
            ⟨[(vx, .num 2, 4)], true, [], true⟩]

/-- The formula `y = 5` depending on label 2. -/
def dB : dependent_expr expr Nat := ⟨mk_eq (.var vy) (.num 5), 2⟩

/-! ## The composition as the specification words it -/

section SpecSide

variable {Term Var Dep : Type} [DecidableEq Var]

/-- Specification, section 4.3 step 3: a (variable, definition, dependency)
triple of the newest active entry is inserted into `S` verbatim; the pair
(variable, definition) goes to the model converter. -/
def spec_insert_verbatim (acc : expr_substitution Term Var Dep × List (Var × Term))
    (e : Var × Term × Dep) : expr_substitution Term Var Dep × List (Var × Term) :=
  (acc.1.insert e.1 e.2.1 e.2.2, acc.2 ++ [(e.1, e.2.1)])

/-- Specification, section 4.3 step 4: a triple `(v, def, dep)` of an older
active entry is inserted as `(v, rewrite(S, def).term,
join(dep, rewrite(S, def).dependency))`, `S` being the substitution
accumulated so far. -/
def spec_insert_resolved (K : Collaborators Term Var Dep)
    (acc : expr_substitution Term Var Dep × List (Var × Term))
    (e : Var × Term × Dep) : expr_substitution Term Var Dep × List (Var × Term) :=
  (acc.1.insert e.1 (K.rewrite acc.1 e.2.1).1 (K.mk_join e.2.2 (K.rewrite acc.1 e.2.1).2),
    acc.2 ++ [(e.1, (K.rewrite acc.1 e.2.1).1)])

/-- Specification, section 4.3: the fold over the active entries listed
newest first; the first one verbatim, every later (older) one resolved. -/
def spec_compose (K : Collaborators Term Var Dep) :
    List (entry Term Var Dep) → expr_substitution Term Var Dep × List (Var × Term)
  | [] => ([], [])
  | newest :: older =>
    older.foldl (fun acc t => t.m_subst.foldl (spec_insert_resolved K) acc)
      (newest.m_subst.foldl spec_insert_verbatim ([], []))

/-- Specification, section 4.3: `buildModelConverter` as the reverse fold over
the active entries of the trail; the substitution `S` and the pairs given to
the model converter. -/
def spec_buildModelConverter (K : Collaborators Term Var Dep)
    (trail : List (entry Term Var Dep)) : expr_substitution Term Var Dep × List (Var × Term) :=
  spec_compose K (trail.filter (fun t => t.m_active)).reverse

/-- The free variables of the removed formulas of an entry, as stored (not
rewritten), in the order `add_vars` marks them. -/
def removed_vars (K : Collaborators Term Var Dep) (t : entry Term Var Dep) : List Var :=
  t.m_removed.flatMap (fun r => K.freeVars r.fml)

/-- The rigid entries a call of `replay` processes (reaches lines 48-56 for),
in trail order. -/
def replay_rigid_processed (K : Collaborators Term Var Dep)
    (self : model_reconstruction_trail Term Var Dep) (d : dependent_expr Term Dep)
    (added : List (dependent_expr Term Dep)) : List (entry Term Var Dep) :=
  rigid_processed K 0 self.m_trail ⟨add_vars K d [], added ++ [d], self.m_trail_stack⟩

/-- The substitution and the model converter pairs of a state of
`get_model_converter`. -/
def converter_state.result (s : converter_state Term Var Dep) :
    expr_substitution Term Var Dep × List (Var × Term) :=
  (s.subst, s.mc)

end SpecSide

/-- A rigid entry `x -> a+1` followed by a loose entry `a -> 7` that removed
`a < 9`: the variable `a` was eliminated after it had entered the definition
of `x`. -/
def trailRigidThenLoose : model_reconstruction_trail expr Nat Nat :=
  mk_trail [⟨[(vx, mk_add (.var va) (.num 1), 1)], true, [], true⟩,
            ⟨[(va, .num 7, 8)], false, [⟨mk_lt (.var va) (.num 9), 4⟩], true⟩]

/-- A loose entry `x -> 1` that removed `x < 4`, followed by a loose entry
`y -> 5` that removed `x < y`. -/
def trailSweep : model_reconstruction_trail expr Nat Nat :=
  mk_trail [⟨[(vx, .num 1, 1)], false, [⟨mk_lt (.var vx) (.num 4), 16⟩], true⟩,
            ⟨[(vy, .num 5, 8)], false, [⟨mk_lt (.var vx) (.var vy), 4⟩], true⟩]

/-- A loose entry `y -> 5` that removed `y < z`, followed by a loose entry
`z -> 3` that removed `z < 9`. -/
def trailChain : model_reconstruction_trail expr Nat Nat :=
  mk_trail [⟨[(vy, .num 5, 1)], false, [⟨mk_lt (.var vy) (.var vz), 4⟩], true⟩,
            ⟨[(vz, .num 3, 8)], false, [⟨mk_lt (.var vz) (.num 9), 16⟩], true⟩]

/-- A loose entry `y -> 5` that removed `y < z`, a rigid entry `z -> 3`, and
a loose entry `a -> 7` that removed `z < a`. -/
def trailThree : model_reconstruction_trail expr Nat Nat :=
  mk_trail [⟨[(vy, .num 5, 1)], false, [⟨mk_lt (.var vy) (.var vz), 4⟩], true⟩,
            ⟨[(vz, .num 3, 8)], true, [], true⟩,
            ⟨[(va, .num 7, 16)], false, [⟨mk_lt (.var vz) (.var va), 32⟩], true⟩]

/-- Scenario C followed by a newest entry `z -> 3` that is inactive. -/
def trailCInactive : model_reconstruction_trail expr Nat Nat :=
  mk_trail [⟨[(vx, mk_add (.var vy) (.num 1), 4)], true, [], true⟩,
            ⟨[(vy, .num 2, 1)], true, [], true⟩,
            ⟨[(vz, .num 3, 8)], true, [], false⟩]

/-- The formula `x < 4` depending on label 4. -/
def dX4 : dependent_expr expr Nat := ⟨mk_lt (.var vx) (.num 4), 4⟩

/-- The formula `y = a` depending on label 2. -/
def dYA : dependent_expr expr Nat := ⟨mk_eq (.var vy) (.var va), 2⟩

/-- Scenario B: the trail [loose: y -> 5, removed = {y < 10}], the removed
formula depending on label 4. -/
def trailB : model_reconstruction_trail expr Nat Nat :=
  mk_trail [⟨[(vy, .num 5, 1)], false, [⟨mk_lt (.var vy) (.num 10), 4⟩], true⟩]

/-! ## Properties of the loop of replay -/

section Proofs

variable {Term Var Dep : Type} [DecidableEq Var]

/-- The three ways an iteration of the loop of `replay` can go: the entry is
skipped, a loose entry is invalidated, or a rigid entry rewrites `added`. -/
theorem replay_step_cases (K : Collaborators Term Var Dep) (i : Nat) (t : entry Term Var Dep)
    (s : replay_state Term Var Dep) :
    ((t.m_active = false ∨ t.intersects s.free_vars = false) ∧ replay_step K i t s = (t, s)) ∨
    (t.m_active = true ∧ t.intersects s.free_vars = true ∧ t.rigid = false ∧
      replay_step K i t s =
        ({ t with m_active := false },
         { free_vars := t.m_removed.foldl (fun fv r => add_vars K r fv) s.free_vars
           added := s.added ++ t.m_removed
           m_trail_stack := s.m_trail_stack ++ [⟨i, true⟩] })) ∨
    (t.m_active = true ∧ t.intersects s.free_vars = true ∧ t.rigid = true ∧
      replay_step K i t s = (t, { s with added := s.added.map (entry.apply K t) })) := by
  unfold replay_step entry.is_loose
  cases ha : t.m_active <;> cases hi : t.intersects s.free_vars <;> cases hr : t.rigid <;> simp

/-- The loop of `replay` over a concatenation is the loop over the first part
followed by the loop over the second. -/
theorem replay_loop_append (K : Collaborators Term Var Dep) (ts1 ts2 : List (entry Term Var Dep))
    (i : Nat) (s : replay_state Term Var Dep) :
    replay_loop K i (ts1 ++ ts2) s =
      ((replay_loop K i ts1 s).1 ++
          (replay_loop K (i + ts1.length) ts2 (replay_loop K i ts1 s).2).1,
        (replay_loop K (i + ts1.length) ts2 (replay_loop K i ts1 s).2).2) := by
  induction ts1 generalizing i s with
  | nil => simp [replay_loop]
  | cons t ts ih =>
    have e : i + 1 + ts.length = i + (ts.length + 1) := by omega
    have key := ih (i + 1) (replay_step K i t s).2
    rw [e] at key
    rw [List.cons_append]
    simp only [replay_loop, List.length_cons, key, List.cons_append]

/-- The loop of `replay` does nothing when no active entry intersects the
free variables. -/
theorem replay_loop_noop (K : Collaborators Term Var Dep) (ts : List (entry Term Var Dep))
    (i : Nat) (s : replay_state Term Var Dep)
    (h : ∀ t ∈ ts, t.m_active = true → t.intersects s.free_vars = false) :
    replay_loop K i ts s = (ts, s) := by
  induction ts generalizing i with
  | nil => rfl
  | cons t ts ih =>
    have hstep : replay_step K i t s = (t, s) := by
      rcases replay_step_cases K i t s with ⟨_, e⟩ | ⟨ha, hi, _, _⟩ | ⟨ha, hi, _, _⟩
      · exact e
      · rw [h t (List.mem_cons_self _ _) ha] at hi; cases hi
      · rw [h t (List.mem_cons_self _ _) ha] at hi; cases hi
    simp only [replay_loop, hstep]
    rw [ih (i + 1) (fun u hu => h u (List.mem_cons_of_mem _ hu))]

/-- An entry intersects no variable when there is no free variable at all. -/
theorem intersects_nil (t : entry Term Var Dep) : t.intersects [] = false := by
  simp [entry.intersects]

/-- C1 (P1, no-op replay): when the free variables of `d.fml` intersect the
substituted variables of no active entry, `replay` started with an empty
`added` returns exactly `[d]` and leaves the whole trail state (every active
flag, the undo log) as it was. -/
theorem replay_no_intersection (K : Collaborators Term Var Dep)
    (self : model_reconstruction_trail Term Var Dep) (d : dependent_expr Term Dep)
    (h : ∀ t ∈ self.m_trail, t.m_active = true → t.intersects (K.freeVars d.fml) = false) :
    replay K self d [] = (self, [d]) := by
  have h0 : add_vars K d [] = K.freeVars d.fml := by simp [add_vars]
  unfold replay
  simp only [h0, List.nil_append]
  rw [replay_loop_noop K self.m_trail 0 ⟨K.freeVars d.fml, [d], self.m_trail_stack⟩ h]

/-- A formula without free variables never triggers an invalidation or a
rewrite: `replay` returns `[d]` and leaves the trail state as it was. -/
theorem replay_closed_formula (K : Collaborators Term Var Dep)
    (self : model_reconstruction_trail Term Var Dep) (d : dependent_expr Term Dep)
    (h : K.freeVars d.fml = []) : replay K self d [] = (self, [d]) := by
  have h0 : add_vars K d [] = [] := by simp [add_vars, h]
  unfold replay
  simp only [h0, List.nil_append]
  rw [replay_loop_noop K self.m_trail 0 ⟨[], [d], self.m_trail_stack⟩
    (fun t _ _ => intersects_nil t)]

/-- C1, at a concrete input: `a > 0` replayed on the trail [rigid: x -> a+1]. -/
theorem replay_no_intersection_witness :
    replay K0 trailA dFree [] = (trailA, [dFree]) :=
  replay_no_intersection K0 trailA dFree (by decide)

/-- Marking the variables of further formulas keeps the variables already
marked. -/
theorem mem_foldl_add_vars (K : Collaborators Term Var Dep) (rs : List (dependent_expr Term Dep))
    (fv : List Var) (x : Var) (h : x ∈ fv) :
    x ∈ rs.foldl (fun fv r => add_vars K r fv) fv := by
  induction rs generalizing fv with
  | nil => exact h
  | cons r rs ih =>
    simp only [List.foldl_cons]
    exact ih _ (by simp [add_vars, h])

/-- The set of marked variables only grows along the loop of `replay`. -/
theorem replay_loop_free_vars_mono (K : Collaborators Term Var Dep)
    (ts : List (entry Term Var Dep)) (i : Nat) (s : replay_state Term Var Dep) (x : Var)
    (h : x ∈ s.free_vars) : x ∈ (replay_loop K i ts s).2.free_vars := by
  induction ts generalizing i s with
  | nil => exact h
  | cons t ts ih =>
    simp only [replay_loop]
    apply ih
    rcases replay_step_cases K i t s with ⟨_, e⟩ | ⟨_, _, _, e⟩ | ⟨_, _, _, e⟩
    · rw [e]; exact h
    · rw [e]; exact mem_foldl_add_vars K _ _ _ h
    · rw [e]; exact h

/-- An entry intersects a set of variables that holds one of its
substituted variables. -/
theorem intersects_of_mem (t : entry Term Var Dep) (fv : List Var) (v : Var)
    (hv : v ∈ t.m_subst.keys) (hf : v ∈ fv) : t.intersects fv = true := by
  simp only [expr_substitution.keys, List.mem_map] at hv
  obtain ⟨e, he, rfl⟩ := hv
  simp only [entry.intersects, expr_substitution.sub, List.any_eq_true, List.mem_map]
  exact ⟨(e.1, e.2.1), ⟨e, he, rfl⟩, by simpa using hf⟩

/-- Rewriting by `t` and then by `rs` is rewriting by `t :: rs`. -/
theorem apply_all_cons (K : Collaborators Term Var Dep) (t : entry Term Var Dep)
    (rs : List (entry Term Var Dep)) (d : dependent_expr Term Dep) :
    apply_all K (t :: rs) d = apply_all K rs (entry.apply K t d) := rfl

/-- The rigid entries processed are active rigid entries of the trail, in
trail order. -/
theorem rigid_processed_sublist (K : Collaborators Term Var Dep)
    (ts : List (entry Term Var Dep)) (i : Nat) (s : replay_state Term Var Dep) :
    (rigid_processed K i ts s).Sublist (ts.filter (fun u => u.m_active && u.rigid)) := by
  induction ts generalizing i s with
  | nil => simp [rigid_processed]
  | cons t ts ih =>
    simp only [rigid_processed]
    split
    · rename_i hc
      simp only [Bool.and_eq_true] at hc
      have hf : (t :: ts).filter (fun u => u.m_active && u.rigid)
          = t :: ts.filter (fun u => u.m_active && u.rigid) := by
        simp [List.filter_cons, hc.1.1, hc.2]
      rw [hf]
      exact (ih _ _).cons₂ t
    · exact (ih _ _).trans ((List.sublist_cons_self t ts).filter _)

/-- Shape of `added` after the loop of `replay`: the elements present before
the loop are each rewritten by the rigid entries processed, in trail order,
and the formulas appended meanwhile follow them. -/
theorem replay_loop_added (K : Collaborators Term Var Dep) (ts : List (entry Term Var Dep))
    (i : Nat) (s : replay_state Term Var Dep) :
    ∃ extra, (replay_loop K i ts s).2.added =
      s.added.map (apply_all K (rigid_processed K i ts s)) ++ extra := by
  induction ts generalizing i s with
  | nil =>
    refine ⟨[], ?_⟩
    have hid : apply_all K ([] : List (entry Term Var Dep)) = id := rfl
    simp [replay_loop, rigid_processed, hid]
  | cons t ts ih =>
    simp only [replay_loop, rigid_processed]
    obtain ⟨extra, hadd⟩ := ih (i + 1) (replay_step K i t s).2
    rcases replay_step_cases K i t s with ⟨hc, e⟩ | ⟨_, _, hr, e⟩ | ⟨ha, hi, hr, e⟩
    · have hf : (t.m_active && t.intersects s.free_vars && t.rigid) = false := by
        rcases hc with hc | hc <;> simp [hc]
      refine ⟨extra, ?_⟩
      rw [hadd, hf, e]
      simp
    · have hf : (t.m_active && t.intersects s.free_vars && t.rigid) = false := by simp [hr]
      refine ⟨t.m_removed.map
        (apply_all K (rigid_processed K (i + 1) ts (replay_step K i t s).2)) ++ extra, ?_⟩
      rw [hadd, hf, e]
      simp
    · have hf : (t.m_active && t.intersects s.free_vars && t.rigid) = true := by
        simp [ha, hi, hr]
      refine ⟨extra, ?_⟩
      rw [hadd, hf, e]
      simp only [List.map_map, if_true]
      rfl

/-- The loop of `replay` returns as many entries as it was given. -/
theorem replay_loop_length (K : Collaborators Term Var Dep) (ts : List (entry Term Var Dep))
    (i : Nat) (s : replay_state Term Var Dep) : (replay_loop K i ts s).1.length = ts.length := by
  induction ts generalizing i s with
  | nil => rfl
  | cons t ts ih => simp [replay_loop, ih]

/-- The loop of `replay` over a trail split at the entry `t`. -/
theorem replay_loop_split (K : Collaborators Term Var Dep) (pre post : List (entry Term Var Dep))
    (t : entry Term Var Dep) (i : Nat) (s : replay_state Term Var Dep) :
    replay_loop K i (pre ++ t :: post) s =
      ((replay_loop K i pre s).1 ++
          (replay_step K (i + pre.length) t (replay_loop K i pre s).2).1 ::
          (replay_loop K (i + pre.length + 1) post
            (replay_step K (i + pre.length) t (replay_loop K i pre s).2).2).1,
        (replay_loop K (i + pre.length + 1) post
            (replay_step K (i + pre.length) t (replay_loop K i pre s).2).2).2) := by
  rw [replay_loop_append]
  simp only [replay_loop]

/-- The element right after a list of known length. -/
theorem getElem?_after {α : Type} (l1 l2 : List α) (a : α) (n : Nat) (h : l1.length = n) :
    (l1 ++ a :: l2)[n]? = some a := by
  subst h
  rw [List.getElem?_append_right (Nat.le_refl _)]
  simp

/-- C2, counterexample: on the trail [loose: y -> 5 with removed y < z,
rigid: z -> 3] the replay of `y = 5` invalidates the loose entry, but its
removed formula `y < z` is not an element of the returned `added`, which holds
`y < 3` instead. -/
theorem replay_removed_not_returned :
    (replay K0 trailLooseRigid dB []).2 = [dB, ⟨mk_lt (.var vy) (.num 3), 12⟩] ∧
    ¬ (∀ t ∈ trailLooseRigid.m_trail, t.m_active = true → t.is_loose = true →
        (∃ v ∈ t.m_subst.keys, v ∈ K0.freeVars dB.fml) →
        ∀ r ∈ t.m_removed, r ∈ (replay K0 trailLooseRigid dB []).2) := by
  decide

/-- The state after the entry that follows `pre` has been processed is one
iteration away from the state after `pre`. -/
theorem replay_after_succ (K : Collaborators Term Var Dep)
    (self : model_reconstruction_trail Term Var Dep) (d : dependent_expr Term Dep)
    (added : List (dependent_expr Term Dep)) (pre post : List (entry Term Var Dep))
    (t : entry Term Var Dep) (h : self.m_trail = pre ++ t :: post) :
    replay_after K self d added (pre.length + 1) =
      (replay_step K pre.length t
        (replay_loop K 0 pre ⟨add_vars K d [], added ++ [d], self.m_trail_stack⟩).2).2 := by
  have htake : self.m_trail.take (pre.length + 1) = pre ++ [t] := by
    rw [h]
    have e1 : pre ++ t :: post = (pre ++ [t]) ++ post := by simp
    rw [e1]
    exact List.take_left' (by simp)
  unfold replay_after
  rw [htake, replay_loop_append]
  simp only [replay_loop, Nat.zero_add]

/-- C2 (P2, amended): an active loose entry `t` one of whose
substituted variables occurs free in `d.fml` is inactive after `replay`, and every formula
of `t.m_removed` is in the returned `added` in the form the rigid entries
processed after `t` gave it: rewritten by them in trail order. Those are
active rigid entries positioned after `t`, so the formula is returned as
stored when no active rigid entry follows `t`. -/
theorem replay_invalidates_loose (K : Collaborators Term Var Dep)
    (self : model_reconstruction_trail Term Var Dep) (d : dependent_expr Term Dep)
    (added : List (dependent_expr Term Dep)) (pre post : List (entry Term Var Dep))
    (t : entry Term Var Dep) (v : Var)
    (h : self.m_trail = pre ++ t :: post) (ha : t.m_active = true) (hl : t.is_loose = true)
    (hv : v ∈ t.m_subst.keys) (hd : v ∈ K.freeVars d.fml) :
    ((replay K self d added).1.m_trail[pre.length]?).map (fun u => u.m_active) = some false ∧
    (∀ r ∈ t.m_removed,
      apply_all K (rigid_processed K (pre.length + 1) post
        (replay_after K self d added (pre.length + 1))) r ∈ (replay K self d added).2) ∧
    (rigid_processed K (pre.length + 1) post
      (replay_after K self d added (pre.length + 1))).Sublist
        (post.filter (fun u => u.m_active && u.rigid)) := by
  have hsub := rigid_processed_sublist K post (pre.length + 1)
    (replay_after K self d added (pre.length + 1))
  have hra := replay_after_succ K self d added pre post t h
  have hrep : replay K self d added =
      ({ self with
          m_trail := (replay_loop K 0 (pre ++ t :: post)
            ⟨add_vars K d [], added ++ [d], self.m_trail_stack⟩).1
          m_trail_stack := (replay_loop K 0 (pre ++ t :: post)
            ⟨add_vars K d [], added ++ [d], self.m_trail_stack⟩).2.m_trail_stack },
        (replay_loop K 0 (pre ++ t :: post)
          ⟨add_vars K d [], added ++ [d], self.m_trail_stack⟩).2.added) := by
    unfold replay
    rw [h]
  rw [hrep, replay_loop_split]
  simp only [Nat.zero_add]
  generalize hs1 : (replay_loop K 0 pre ⟨add_vars K d [], added ++ [d], self.m_trail_stack⟩) = r1
    at hra
  have hfv : v ∈ r1.2.free_vars := by
    rw [← hs1]
    apply replay_loop_free_vars_mono
    simp [add_vars, hd]
  have hint := intersects_of_mem t r1.2.free_vars v hv hfv
  have hlen : r1.1.length = pre.length := by rw [← hs1]; exact replay_loop_length K _ _ _
  have hr : t.rigid = false := by simpa [entry.is_loose] using hl
  rcases replay_step_cases K pre.length t r1.2 with ⟨h1 | h1, _⟩ | ⟨_, _, _, e⟩ | ⟨_, _, h3, _⟩
  · rw [ha] at h1; cases h1
  · rw [hint] at h1; cases h1
  · rw [e] at hra
    rw [e]
    refine ⟨?_, ?_, hsub⟩
    · rw [getElem?_after _ _ _ _ hlen]; rfl
    · intro r hrm
      rw [hra]
      generalize hs2 : ({ free_vars := t.m_removed.foldl (fun fv r => add_vars K r fv)
                            r1.2.free_vars
                          added := r1.2.added ++ t.m_removed
                          m_trail_stack := r1.2.m_trail_stack ++ [⟨pre.length, true⟩] } :
          replay_state Term Var Dep) = s2
      have hs2a : s2.added = r1.2.added ++ t.m_removed := by rw [← hs2]
      obtain ⟨extra, hadd⟩ := replay_loop_added K post (pre.length + 1) s2
      rw [hs2a] at hadd
      simp only []
      rw [hadd]
      simp only [List.map_append, List.mem_append, List.mem_map]
      exact Or.inl (Or.inr ⟨r, hrm, rfl⟩)
  · rw [hr] at h3; cases h3

/-- C2 (amended), at a concrete input: the loose entry of the trail
[loose: y -> 5 with removed y < z, rigid: z -> 3] and the formula `y = 5`. -/
theorem replay_invalidates_loose_witness :
    ((replay K0 trailLooseRigid dB []).1.m_trail[0]?).map (fun u => u.m_active) = some false ∧
    (∀ r ∈ [(⟨mk_lt (.var vy) (.var vz), 4⟩ : dependent_expr expr Nat)],
      apply_all K0 (rigid_processed K0 (0 + 1) [⟨[(vz, expr.num 3, 8)], true, [], true⟩]
        (replay_after K0 trailLooseRigid dB [] (0 + 1))) r ∈
          (replay K0 trailLooseRigid dB []).2) ∧
    (rigid_processed K0 (0 + 1) [⟨[(vz, expr.num 3, 8)], true, [], true⟩]
      (replay_after K0 trailLooseRigid dB [] (0 + 1))).Sublist
        ([⟨[(vz, expr.num 3, 8)], true, [], true⟩].filter (fun u => u.m_active && u.rigid)) :=
  replay_invalidates_loose K0 trailLooseRigid dB [] []
    [⟨[(vz, .num 3, 8)], true, [], true⟩]
    ⟨[(vy, .num 5, 1)], false, [⟨mk_lt (.var vy) (.var vz), 4⟩], true⟩ vy
    rfl rfl rfl (by decide) (by decide)

/-- The state reached after the first `n` entries is the state `replay`
continues from: its result is the loop over the remaining entries. -/
theorem replay_after_continue (K : Collaborators Term Var Dep)
    (self : model_reconstruction_trail Term Var Dep) (d : dependent_expr Term Dep)
    (added : List (dependent_expr Term Dep)) (n : Nat) :
    (replay K self d added).2 =
      (replay_loop K (0 + (self.m_trail.take n).length) (self.m_trail.drop n)
        (replay_after K self d added n)).2.added := by
  unfold replay replay_after
  simp only []
  conv_lhs => rw [← List.take_append_drop n self.m_trail]
  rw [replay_loop_append]

end Proofs

/-- The concrete rewrite operation substitutes every occurrence of every
mapped variable. -/
theorem K0_substitutes_every : SubstitutesEvery K0 := by
  intro s f x
  induction f with
  | var n =>
    simp only [K0, expr.replace]
    cases hf : s.find? (fun e => decide (e.1 = n)) with
    | none =>
      intro hx
      simp only [expr.vars, List.mem_singleton] at hx
      subst hx
      left
      refine ⟨by simp [expr.vars], ?_⟩
      rw [List.find?_eq_none] at hf
      simp only [expr_substitution.keys, List.mem_map, not_exists, not_and]
      intro e he hex
      exact hf e he (by simpa using hex)
    | some e =>
      intro hx
      right
      have h1 := List.find?_some hf
      have h2 := List.mem_of_find?_eq_some hf
      refine ⟨e, h2, ?_, hx⟩
      simp only [decide_eq_true_eq] at h1
      simp [expr.vars, h1]
  | num k =>
    intro hx
    simp [K0, expr.replace, expr.vars] at hx
  | app g a b iha ihb =>
    intro hx
    simp only [K0, expr.replace, expr.vars, List.mem_append] at hx iha ihb ⊢
    rcases hx with hx | hx
    · rcases iha hx with ⟨h1, h2⟩ | ⟨e, he, h1, h2⟩
      · exact Or.inl ⟨Or.inl h1, h2⟩
      · exact Or.inr ⟨e, he, Or.inl h1, h2⟩
    · rcases ihb hx with ⟨h1, h2⟩ | ⟨e, he, h1, h2⟩
      · exact Or.inl ⟨Or.inr h1, h2⟩
      · exact Or.inr ⟨e, he, Or.inr h1, h2⟩

section Proofs2

variable {Term Var Dep : Type} [DecidableEq Var]

/-- C3, counterexample: the rigid entry {x -> a, y -> x} defines `x` by a term
without `x`, and `x` occurs in `x > y`; immediately after the entry has been
processed `added` holds `a > x`, in which `x` occurs free. -/
theorem rigid_leaves_variable :
    SubstitutesEvery K0 ∧
    trailTwoVars.m_trail = [entryTwoVars] ∧
    entryTwoVars.m_active = true ∧ entryTwoVars.rigid = true ∧
    vx ∈ entryTwoVars.m_subst.keys ∧ vx ∈ K0.freeVars dXY.fml ∧
    (∀ e ∈ entryTwoVars.m_subst, e.1 = vx → vx ∉ K0.freeVars e.2.1) ∧
    (replay_after K0 trailTwoVars dXY [] 1).added = [⟨mk_gt (.var va) (.var vx), 7⟩] ∧
    ¬ (∀ e ∈ (replay_after K0 trailTwoVars dXY [] 1).added, vx ∉ K0.freeVars e.fml) :=
  ⟨K0_substitutes_every, by decide, by decide, by decide, by decide, by decide, by decide,
    by decide, by decide⟩

/-- C3 (P3, amended): when the rewrite operation substitutes every occurrence
of every mapped variable, `t` is an active rigid entry one of whose
substituted variables `v` occurs free in `d.fml`, and no definition of `t`
(for `v` or for another variable of `t`) contains `v`, then immediately after
`replay` has processed `t` the variable `v` occurs free in no element of
`added`. -/
theorem rigid_eliminates (K : Collaborators Term Var Dep) (hK : SubstitutesEvery K)
    (self : model_reconstruction_trail Term Var Dep) (d : dependent_expr Term Dep)
    (added : List (dependent_expr Term Dep)) (pre post : List (entry Term Var Dep))
    (t : entry Term Var Dep) (v : Var)
    (h : self.m_trail = pre ++ t :: post) (ha : t.m_active = true) (hr : t.rigid = true)
    (hv : v ∈ t.m_subst.keys) (hd : v ∈ K.freeVars d.fml)
    (hdef : ∀ e ∈ t.m_subst, v ∉ K.freeVars e.2.1) :
    ∀ e ∈ (replay_after K self d added (pre.length + 1)).added, v ∉ K.freeVars e.fml := by
  rw [replay_after_succ K self d added pre post t h]
  generalize hs1 : (replay_loop K 0 pre ⟨add_vars K d [], added ++ [d], self.m_trail_stack⟩) = r1
  have hfv : v ∈ r1.2.free_vars := by
    rw [← hs1]
    apply replay_loop_free_vars_mono
    simp [add_vars, hd]
  have hint := intersects_of_mem t r1.2.free_vars v hv hfv
  rcases replay_step_cases K pre.length t r1.2 with
    ⟨h1 | h1, _⟩ | ⟨_, _, h2, _⟩ | ⟨_, _, _, e⟩
  · rw [ha] at h1; cases h1
  · rw [hint] at h1; cases h1
  · rw [hr] at h2; cases h2
  · rw [e]
    intro e1 he1
    simp only [List.mem_map] at he1
    obtain ⟨e0, _, rfl⟩ := he1
    intro hx
    rcases hK t.m_subst e0.fml v hx with ⟨_, h2⟩ | ⟨e2, he2, _, h3⟩
    · exact h2 hv
    · exact hdef e2 he2 h3

/-- C3 (amended), at a concrete input: Scenario A, the rigid entry x -> a+1
and the formula `x > 0`. -/
theorem rigid_eliminates_witness :
    vx ∈ K0.freeVars dA.fml ∧
    (replay_after K0 trailA dA [] 1).added =
      [⟨mk_gt (mk_add (.var va) (.num 1)) (.num 0), 3⟩] ∧
    ∀ e ∈ (replay_after K0 trailA dA [] (0 + 1)).added, vx ∉ K0.freeVars e.fml :=
  ⟨by decide, by decide,
    rigid_eliminates K0 K0_substitutes_every trailA dA [] [] []
      ⟨[(vx, mk_add (.var va) (.num 1), 1)], true, [], true⟩ vx rfl rfl rfl
      (by decide) (by decide) (by decide)⟩

/-! ## Properties of get_model_converter -/

/-- Keys of a substitution after an insertion: an existing key keeps its
place, a new key goes to the end. -/
theorem insert_keys (S : expr_substitution Term Var Dep) (v : Var) (de : Term) (dp : Dep) :
    (S.insert v de dp).keys = if v ∈ S.keys then S.keys else S.keys ++ [v] := by
  unfold expr_substitution.insert expr_substitution.keys
  by_cases hv : v ∈ S.map (fun e => e.1)
  · have hany : S.any (fun e => decide (e.1 = v)) = true := by
      simp only [List.mem_map] at hv
      obtain ⟨e, he, rfl⟩ := hv
      simp only [List.any_eq_true]
      exact ⟨e, he, by simp⟩
    simp only [hany, if_true, hv, List.map_map]
    apply List.map_congr_left
    intro e _
    by_cases h : e.1 = v <;> simp [h]
  · have hany : S.any (fun e => decide (e.1 = v)) = false := by
      simp only [List.mem_map, not_exists, not_and] at hv
      simp only [List.any_eq_false]
      intro e he
      simpa using hv e he
    simp [hany, hv]

/-- A key of the substitution after an insertion is an old key or the
inserted variable. -/
theorem mem_insert_keys (S : expr_substitution Term Var Dep) (v : Var) (de : Term) (dp : Dep)
    (k : Var) : k ∈ (S.insert v de dp).keys ↔ k ∈ S.keys ∨ k = v := by
  rw [insert_keys]
  by_cases hv : v ∈ S.keys
  · simp only [hv, if_true]
    constructor
    · exact Or.inl
    · rintro (h | rfl)
      · exact h
      · exact hv
  · simp [hv]

/-- A triple of the substitution after an insertion is an old triple or the
inserted one. -/
theorem mem_insert (S : expr_substitution Term Var Dep) (v : Var) (de : Term) (dp : Dep)
    (e : Var × Term × Dep) (he : e ∈ S.insert v de dp) : e ∈ S ∨ e = (v, de, dp) := by
  unfold expr_substitution.insert at he
  split at he
  · simp only [List.mem_map] at he
    obtain ⟨e0, he0, rfl⟩ := he
    by_cases h : e0.1 = v
    · right; simp [h]
    · left; simpa [h] using he0
  · simp only [List.mem_append, List.mem_singleton] at he
    exact he

/-- Insertion overwrites: the keys of the substitution stay free of
duplicates. -/
theorem insert_keys_nodup (S : expr_substitution Term Var Dep) (v : Var) (de : Term) (dp : Dep)
    (h : S.keys.Nodup) : (S.insert v de dp).keys.Nodup := by
  rw [insert_keys]
  by_cases hv : v ∈ S.keys
  · simpa [hv] using h
  · simp only [hv, if_false]
    exact List.Nodup.append h (List.nodup_singleton v) (by simpa using hv)

/-- Inserting a definition that contains neither a key of the substitution
nor a variable substituted by an active entry of `L`, for a variable of such
an entry, keeps the substitution fully resolved and clear of those variables. -/
theorem insert_preserves (K : Collaborators Term Var Dep) (L : List (entry Term Var Dep))
    (S : expr_substitution Term Var Dep) (v : Var) (nd : Term) (dp : Dep)
    (hA : AvoidsKeysOf K L S) (hB : FullyResolved K S)
    (hv : ∃ u ∈ L, u.m_active = true ∧ v ∈ u.m_subst.keys)
    (h1 : ∀ u ∈ L, u.m_active = true → ∀ k ∈ u.m_subst.keys, k ∉ K.freeVars nd)
    (h2 : ∀ k ∈ S.keys, k ∉ K.freeVars nd) :
    AvoidsKeysOf K L (S.insert v nd dp) ∧ FullyResolved K (S.insert v nd dp) := by
  obtain ⟨u0, hu0, hu0a, hu0v⟩ := hv
  constructor
  · intro e he u hu hua k hk
    rcases mem_insert S v nd dp e he with h | rfl
    · exact hA e h u hu hua k hk
    · exact h1 u hu hua k hk
  · intro e he k hk
    rw [mem_insert_keys] at hk
    rcases mem_insert S v nd dp e he with h | rfl
    · rcases hk with hk | rfl
      · exact hB e h k hk
      · exact hA e h u0 hu0 hu0a _ hu0v
    · rcases hk with hk | rfl
      · exact h2 k hk
      · exact h1 u0 hu0 hu0a _ hu0v

/-- A pair of `sub()` comes from a triple of the substitution. -/
theorem mem_sub (S : expr_substitution Term Var Dep) (kv : Var × Term) (h : kv ∈ S.sub) :
    ∃ e ∈ S, kv = (e.1, e.2.1) := by
  simp only [expr_substitution.sub, List.mem_map] at h
  obtain ⟨e, he, rfl⟩ := h
  exact ⟨e, he, rfl⟩

/-- The variable of a triple is a key. -/
theorem mem_keys_of_mem (S : expr_substitution Term Var Dep) (e : Var × Term × Dep)
    (h : e ∈ S) : e.1 ∈ S.keys := by
  simp only [expr_substitution.keys, List.mem_map]
  exact ⟨e, h, rfl⟩

/-- The loop of lines 84-88 keeps the substitution fully resolved when
the definitions of `t` contain no variable substituted by `t` or by an active
entry still to be visited. -/
theorem verbatim_fold_resolved (K : Collaborators Term Var Dep) (t : entry Term Var Dep)
    (rest : List (entry Term Var Dep)) (ha : t.m_active = true)
    (hH : ∀ u ∈ t :: rest, u.m_active = true → mentions_none K u t)
    (kvs : List (Var × Term)) (hk : ∀ kv ∈ kvs, ∃ e ∈ t.m_subst, kv = (e.1, e.2.1))
    (s : converter_state Term Var Dep)
    (hA : AvoidsKeysOf K (t :: rest) s.subst) (hB : FullyResolved K s.subst)
    (hC : ∀ k ∈ s.subst.keys, k ∈ t.m_subst.keys) :
    AvoidsKeysOf K (t :: rest) (kvs.foldl (verbatim_step K t) s).subst ∧
      FullyResolved K (kvs.foldl (verbatim_step K t) s).subst ∧
      (kvs.foldl (verbatim_step K t) s).first = s.first := by
  induction kvs generalizing s with
  | nil => exact ⟨hA, hB, rfl⟩
  | cons kv kvs ih =>
    simp only [List.foldl_cons]
    obtain ⟨e, he, rfl⟩ := hk kv (List.mem_cons_self _ _)
    have hkey := mem_keys_of_mem t.m_subst e he
    have hins := insert_preserves K (t :: rest) s.subst e.1 e.2.1
      (t.m_subst.dep K.null e.1) hA hB
      ⟨t, List.mem_cons_self _ _, ha, hkey⟩
      (fun u hu hua k hk1 => hH u hu hua e he k hk1)
      (fun k hk1 => hH t (List.mem_cons_self _ _) ha e he k (hC k hk1))
    have hC2 : ∀ k ∈ (verbatim_step K t s (e.1, e.2.1)).subst.keys, k ∈ t.m_subst.keys := by
      intro k hk1
      simp only [verbatim_step, mem_insert_keys] at hk1
      rcases hk1 with hk1 | rfl
      · exact hC k hk1
      · exact hkey
    have := ih (fun kv hkv => hk kv (List.mem_cons_of_mem _ hkv))
      (verbatim_step K t s (e.1, e.2.1)) hins.1 hins.2 hC2
    exact ⟨this.1, this.2.1, this.2.2.trans rfl⟩

/-- The loop of lines 94-100 keeps the substitution fully resolved when the
rewrite operation substitutes every occurrence of every mapped variable and
the definitions of `t` contain no variable substituted by `t` or by an active
entry still to be visited. -/
theorem resolved_fold_resolved (K : Collaborators Term Var Dep) (hK : SubstitutesEvery K)
    (t : entry Term Var Dep) (rest : List (entry Term Var Dep)) (ha : t.m_active = true)
    (hH : ∀ u ∈ t :: rest, u.m_active = true → mentions_none K u t)
    (kvs : List (Var × Term)) (hk : ∀ kv ∈ kvs, ∃ e ∈ t.m_subst, kv = (e.1, e.2.1))
    (s : converter_state Term Var Dep)
    (hA : AvoidsKeysOf K (t :: rest) s.subst) (hB : FullyResolved K s.subst) :
    AvoidsKeysOf K (t :: rest) (kvs.foldl (resolved_step K t) s).subst ∧
      FullyResolved K (kvs.foldl (resolved_step K t) s).subst ∧
      (kvs.foldl (resolved_step K t) s).first = s.first := by
  induction kvs generalizing s with
  | nil => exact ⟨hA, hB, rfl⟩
  | cons kv kvs ih =>
    simp only [List.foldl_cons]
    obtain ⟨e, he, rfl⟩ := hk kv (List.mem_cons_self _ _)
    have hkey := mem_keys_of_mem t.m_subst e he
    have hins := insert_preserves K (t :: rest) s.subst e.1 (K.rewrite s.subst e.2.1).1
      (K.mk_join (t.m_subst.dep K.null e.1) (K.rewrite s.subst e.2.1).2) hA hB
      ⟨t, List.mem_cons_self _ _, ha, hkey⟩
      (by
        intro u hu hua k hk1 hx
        rcases hK s.subst e.2.1 k hx with ⟨h1, _⟩ | ⟨e2, he2, _, h3⟩
        · exact hH u hu hua e he k hk1 h1
        · exact hA e2 he2 u hu hua k hk1 h3)
      (by
        intro k hk1 hx
        rcases hK s.subst e.2.1 k hx with ⟨_, h2⟩ | ⟨e2, he2, _, h3⟩
        · exact h2 hk1
        · exact hB e2 he2 k hk1 h3)
    have := ih (fun kv hkv => hk kv (List.mem_cons_of_mem _ hkv))
      (resolved_step K t s (e.1, e.2.1)) hins.1 hins.2
    exact ⟨this.1, this.2.1, this.2.2.trans rfl⟩

/-- The walk of `get_model_converter` over the entries `L`, newest first, ends
with a fully resolved substitution when it starts with one and the entries
follow the chronological order. -/
theorem converter_fold_resolved (K : Collaborators Term Var Dep) (hK : SubstitutesEvery K)
    (L : List (entry Term Var Dep)) (s : converter_state Term Var Dep)
    (hself : ∀ t ∈ L, t.m_active = true → mentions_none K t t)
    (hpw : L.Pairwise (fun t u => u.m_active = true → t.m_active = true → mentions_none K u t))
    (hA : AvoidsKeysOf K L s.subst) (hB : FullyResolved K s.subst)
    (hF : s.first = true → s.subst = []) :
    FullyResolved K (L.foldl (converter_step K) s).subst := by
  induction L generalizing s with
  | nil => exact hB
  | cons t rest ih =>
    simp only [List.foldl_cons]
    rw [List.pairwise_cons] at hpw
    have hself2 : ∀ u ∈ rest, u.m_active = true → mentions_none K u u :=
      fun u hu => hself u (List.mem_cons_of_mem _ hu)
    have weaken : ∀ S, AvoidsKeysOf K (t :: rest) S → AvoidsKeysOf K rest S :=
      fun S h e he u hu => h e he u (List.mem_cons_of_mem _ hu)
    cases hact : t.m_active with
    | false =>
      have hstep : converter_step K s t = s := by simp [converter_step, hact]
      rw [hstep]
      exact ih s hself2 hpw.2 (weaken _ hA) hB hF
    | true =>
      have hH : ∀ u ∈ t :: rest, u.m_active = true → mentions_none K u t := by
        intro u hu hua
        rcases List.mem_cons.mp hu with rfl | hu
        · exact hself u (List.mem_cons_self _ _) hua
        · exact hpw.1 u hu hua hact
      cases hfirst : s.first with
      | true =>
        have hstep : converter_step K s t = insert_verbatim K t { s with first := false } := by
          simp [converter_step, hact, hfirst]
        rw [hstep]
        have hnil := hF hfirst
        have h3 := verbatim_fold_resolved K t rest hact hH t.m_subst.sub
          (mem_sub t.m_subst) { s with first := false } hA hB
          (by intro k hk1; simp [hnil, expr_substitution.keys] at hk1)
        refine ih _ hself2 hpw.2 (weaken _ h3.1) h3.2.1 ?_
        intro hf
        have : (insert_verbatim K t { s with first := false }).first = false := h3.2.2
        rw [this] at hf; cases hf
      | false =>
        have hstep : converter_step K s t = insert_resolved K t s := by
          simp [converter_step, hact, hfirst]
        rw [hstep]
        have h3 := resolved_fold_resolved K hK t rest hact hH t.m_subst.sub
          (mem_sub t.m_subst) s hA hB
        refine ih _ hself2 hpw.2 (weaken _ h3.1) h3.2.1 ?_
        intro hf
        have : (insert_resolved K t s).first = s.first := h3.2.2
        rw [this, hfirst] at hf; cases hf

/-- C4, counterexample: on the trail [older: y -> 2, newer: x -> y+1] the
substitution built by `get_model_converter` is {x: y+1, y: 2}; the definition
of `x` contains `y`, which is a key of the substitution. -/
theorem converter_not_resolved :
    get_model_converter_subst K0 trailOutOfOrder =
      [(vx, mk_add (.var vy) (.num 1), 4), (vy, .num 2, 1)] ∧
    ¬ (∀ e ∈ get_model_converter_subst K0 trailOutOfOrder,
        ∀ k ∈ (get_model_converter_subst K0 trailOutOfOrder).keys, k ∉ K0.freeVars e.2.1) := by
  decide

/-- C4 (P4, amended): when the rewrite operation substitutes every occurrence
of every mapped variable and the trail follows the chronological order
(no definition of an active entry contains a variable substituted by that entry or
by an older active entry), no definition stored in the substitution built by
`get_model_converter` contains a variable that is a key of that substitution. -/
theorem converter_fully_resolved (K : Collaborators Term Var Dep) (hK : SubstitutesEvery K)
    (self : model_reconstruction_trail Term Var Dep) (hc : Chronological K self.m_trail) :
    ∀ e ∈ get_model_converter_subst K self,
      ∀ k ∈ (get_model_converter_subst K self).keys, k ∉ K.freeVars e.2.1 := by
  have h := converter_fold_resolved K hK self.m_trail.reverse ⟨true, [], []⟩
    (fun t ht => hc.1 t (List.mem_reverse.mp ht))
    (List.pairwise_reverse.mpr hc.2)
    (fun e he => by cases he) (fun e he => by cases he) (fun _ => rfl)
  exact h

/-- C4 (amended), at a concrete input: Scenario C, the older entry x -> y+1
followed by the newer entry y -> 2. -/
theorem converter_fully_resolved_witness :
    get_model_converter_subst K0 trailC =
      [(vy, .num 2, 1), (vx, mk_add (.num 2) (.num 1), 5)] ∧
    ∀ e ∈ get_model_converter_subst K0 trailC,
      ∀ k ∈ (get_model_converter_subst K0 trailC).keys, k ∉ K0.freeVars e.2.1 :=
  ⟨by decide,
    converter_fully_resolved K0 K0_substitutes_every trailC (by
      unfold Chronological mentions_none
      decide)⟩

/-- A loop whose body inserts the variable of each pair into `subst` and adds
a pair for it to the model converter appends the variables of the pairs to
those of the model converter and keeps the keys of `subst` in agreement. -/
theorem fold_keys (f : converter_state Term Var Dep → Var × Term → converter_state Term Var Dep)
    (hf : ∀ st kv, ∃ X Y, f st kv =
      { st with subst := st.subst.insert kv.1 X Y, mc := st.mc ++ [(kv.1, X)] })
    (kvs : List (Var × Term)) (s : converter_state Term Var Dep) (h : KeysAgree s) :
    (kvs.foldl f s).mc.map Prod.fst = s.mc.map Prod.fst ++ kvs.map Prod.fst ∧
      KeysAgree (kvs.foldl f s) ∧ (kvs.foldl f s).first = s.first := by
  induction kvs generalizing s with
  | nil => simp [h]
  | cons kv kvs ih =>
    simp only [List.foldl_cons]
    obtain ⟨X, Y, e⟩ := hf s kv
    have h2 : KeysAgree (f s kv) := by
      rw [e]
      refine ⟨insert_keys_nodup _ _ _ _ h.1, ?_⟩
      intro k
      simp only [mem_insert_keys, List.map_append, List.mem_append, List.map_cons, List.map_nil,
        List.mem_singleton, h.2 k]
    obtain ⟨h3, h4, h5⟩ := ih (f s kv) h2
    refine ⟨?_, h4, ?_⟩
    · rw [h3, e]; simp
    · rw [h5, e]

/-- The variables of the pairs of `sub()` are the keys. -/
theorem sub_map_fst (S : expr_substitution Term Var Dep) : S.sub.map Prod.fst = S.keys := by
  simp [expr_substitution.sub, expr_substitution.keys]

/-- The walk of `get_model_converter` over the entries `L`, newest first, adds
to the model converter one pair for every triple of every active entry, in the
order of the walk, and keeps the keys of `subst` in agreement. -/
theorem converter_fold_keys (K : Collaborators Term Var Dep) (L : List (entry Term Var Dep))
    (s : converter_state Term Var Dep) (h : KeysAgree s) :
    (L.foldl (converter_step K) s).mc.map Prod.fst =
        s.mc.map Prod.fst ++
          (L.filter (fun t => t.m_active)).flatMap (fun t => t.m_subst.keys) ∧
      KeysAgree (L.foldl (converter_step K) s) := by
  induction L generalizing s with
  | nil => simp [h]
  | cons t rest ih =>
    simp only [List.foldl_cons]
    cases hact : t.m_active with
    | false =>
      have hstep : converter_step K s t = s := by simp [converter_step, hact]
      rw [hstep]
      simpa [List.filter_cons, hact] using ih s h
    | true =>
      have hv := fold_keys (verbatim_step K t) (fun st kv => ⟨_, _, rfl⟩) t.m_subst.sub
        { s with first := false } h
      have hr := fold_keys (resolved_step K t) (fun st kv => ⟨_, _, rfl⟩) t.m_subst.sub s h
      cases hfirst : s.first with
      | true =>
        have hstep : converter_step K s t = insert_verbatim K t { s with first := false } := by
          simp [converter_step, hact, hfirst]
        rw [hstep]
        obtain ⟨h1, h2⟩ := ih (insert_verbatim K t { s with first := false }) hv.2.1
        refine ⟨?_, h2⟩
        rw [h1]
        have := hv.1
        simp only [insert_verbatim] at this ⊢
        rw [this, sub_map_fst]
        simp [List.filter_cons, hact]
      | false =>
        have hstep : converter_step K s t = insert_resolved K t s := by
          simp [converter_step, hact, hfirst]
        rw [hstep]
        obtain ⟨h1, h2⟩ := ih (insert_resolved K t s) hr.2.1
        refine ⟨?_, h2⟩
        rw [h1]
        have := hr.1
        simp only [insert_resolved] at this ⊢
        rw [this, sub_map_fst]
        simp [List.filter_cons, hact]

/-- C5, counterexample: on the trail [older: x -> 1, newer: x -> 2], both
entries active, `get_model_converter` returns a converter (with a pair for each
of the two definitions) and the accumulated substitution holds one definition
of `x`: the insertion of the older entry overwrote the newer definition. -/
theorem converter_overwrites_silently :
    get_model_converter K0 trailTwice = (trailTwice, [(vx, .num 2), (vx, .num 1)]) ∧
    get_model_converter_subst K0 trailTwice = [(vx, .num 1, 1)] ∧
    (∃ t1 ∈ trailTwice.m_trail, ∃ t2 ∈ trailTwice.m_trail, t1 ≠ t2 ∧
      t1.m_active = true ∧ t2.m_active = true ∧
      vx ∈ t1.m_subst.keys ∧ vx ∈ t2.m_subst.keys) := by
  decide

/-- C5 (amended): `get_model_converter` has no error path. When two active
entries of the trail both define the variable `v`, it returns a converter all
the same: the accumulated substitution holds exactly one definition of `v`
(insertion overwrites), while the returned model converter has received a pair
for `v` from each of the two entries. -/
theorem converter_keeps_one_definition (K : Collaborators Term Var Dep)
    (self : model_reconstruction_trail Term Var Dep) (pre mid post : List (entry Term Var Dep))
    (t1 t2 : entry Term Var Dep) (v : Var)
    (h : self.m_trail = pre ++ t1 :: (mid ++ t2 :: post))
    (h1 : t1.m_active = true) (h2 : t2.m_active = true)
    (hv1 : v ∈ t1.m_subst.keys) (hv2 : v ∈ t2.m_subst.keys) :
    (get_model_converter_subst K self).keys.count v = 1 ∧
      2 ≤ ((get_model_converter K self).2.map Prod.fst).count v := by
  have hinit : KeysAgree (⟨true, [], []⟩ : converter_state Term Var Dep) := by
    simp [KeysAgree, expr_substitution.keys]
  obtain ⟨hmc, hnd, hagree⟩ := converter_fold_keys K self.m_trail.reverse ⟨true, [], []⟩ hinit
  have c1 : 1 ≤ t1.m_subst.keys.count v := List.one_le_count_iff.mpr hv1
  have c2 : 1 ≤ t2.m_subst.keys.count v := List.one_le_count_iff.mpr hv2
  have hcount : 2 ≤ ((get_model_converter K self).2.map Prod.fst).count v := by
    unfold get_model_converter converter_loop
    simp only []
    rw [hmc, h]
    simp only [List.map_nil, List.nil_append, List.reverse_append, List.reverse_cons,
      List.append_assoc, List.filter_append, List.filter_cons, List.filter_nil, h1, h2, if_true,
      List.flatMap_append, List.flatMap_cons, List.flatMap_nil, List.count_append,
      List.singleton_append, List.append_nil]
    omega
  refine ⟨?_, hcount⟩
  have hmem : v ∈ (get_model_converter K self).2.map Prod.fst :=
    List.one_le_count_iff.mp (by omega)
  exact List.count_eq_one_of_mem hnd ((hagree v).mpr hmem)

/-- C5 (amended), at a concrete input: the trail [older: x -> 1, newer: x -> 2]. -/
theorem converter_keeps_one_definition_witness :
    (get_model_converter_subst K0 trailTwice).keys.count vx = 1 ∧
      2 ≤ ((get_model_converter K0 trailTwice).2.map Prod.fst).count vx :=
  converter_keeps_one_definition K0 trailTwice [] [] []
    ⟨[(vx, .num 1, 1)], true, [], true⟩ ⟨[(vx, .num 2, 4)], true, [], true⟩ vx
    rfl rfl rfl (by decide) (by decide)

/-- C9: `get_model_converter` leaves the trail state (entries, order, active
flags, undo log, scopes) as it found it, and a second call on the state the
first call left returns the same model converter and accumulates the same
substitution, triple for triple. -/
theorem get_model_converter_read_only (K : Collaborators Term Var Dep)
    (self : model_reconstruction_trail Term Var Dep) :
    (get_model_converter K self).1 = self ∧
    (get_model_converter K (get_model_converter K self).1).2 = (get_model_converter K self).2 ∧
    get_model_converter_subst K (get_model_converter K self).1 =
      get_model_converter_subst K self :=
  ⟨rfl, rfl, rfl⟩

/-! ## Scopes and frame properties of replay -/

/-- Setting the flag of the entry that follows `pre`. -/
theorem set_active_at (pre ts : List (entry Term Var Dep)) (t : entry Term Var Dep) (b : Bool) :
    set_active (pre ++ t :: ts) pre.length b = pre ++ { t with m_active := b } :: ts := by
  induction pre with
  | nil => rfl
  | cons p pre ih => simp [set_active, ih]

/-- The loop of `replay` extends the undo log by records whose undoing, newest
first, gives back the entries the loop started from. -/
theorem replay_loop_undo (K : Collaborators Term Var Dep) (ts : List (entry Term Var Dep))
    (i : Nat) (s : replay_state Term Var Dep) :
    ∃ recs, (replay_loop K i ts s).2.m_trail_stack = s.m_trail_stack ++ recs ∧
      ∀ pre : List (entry Term Var Dep), pre.length = i →
        recs.reverse.foldl undo (pre ++ (replay_loop K i ts s).1) = pre ++ ts := by
  induction ts generalizing i s with
  | nil => exact ⟨[], by simp [replay_loop], fun pre _ => by simp [replay_loop]⟩
  | cons t ts ih =>
    simp only [replay_loop]
    obtain ⟨recs, hst, hun⟩ := ih (i + 1) (replay_step K i t s).2
    rcases replay_step_cases K i t s with ⟨_, e⟩ | ⟨ha, _, _, e⟩ | ⟨_, _, _, e⟩
    · refine ⟨recs, by rw [hst, e], ?_⟩
      intro pre hpre
      have := hun (pre ++ [t]) (by simp [hpre])
      rw [e] at this ⊢
      simpa using this
    · refine ⟨⟨i, true⟩ :: recs, by rw [hst, e]; simp, ?_⟩
      intro pre hpre
      have := hun (pre ++ [{ t with m_active := false }]) (by simp [hpre])
      rw [e] at this ⊢
      simp only [List.append_assoc, List.singleton_append] at this
      simp only [List.reverse_cons, List.foldl_append, List.foldl_cons, List.foldl_nil, this]
      unfold undo
      simp only []
      rw [← hpre, set_active_at]
      cases t
      simp only [] at ha
      simp [ha]
    · refine ⟨recs, by rw [hst, e], ?_⟩
      intro pre hpre
      have := hun (pre ++ [t]) (by simp [hpre])
      rw [e] at this ⊢
      simpa using this

/-- A sequence of `replay` calls extends the undo log by records whose
undoing, newest first, gives back the entries it started from; the scope marks
are not touched. -/
theorem replay_all_undo (K : Collaborators Term Var Dep)
    (calls : List (dependent_expr Term Dep × List (dependent_expr Term Dep)))
    (st : model_reconstruction_trail Term Var Dep) :
    ∃ recs, (replay_all K st calls).m_trail_stack = st.m_trail_stack ++ recs ∧
      (replay_all K st calls).m_scopes = st.m_scopes ∧
      recs.reverse.foldl undo (replay_all K st calls).m_trail = st.m_trail := by
  induction calls generalizing st with
  | nil => exact ⟨[], by simp [replay_all], rfl, rfl⟩
  | cons c calls ih =>
    obtain ⟨recs2, h1, h2, h3⟩ := ih (replay K st c.1 c.2).1
    obtain ⟨recs1, g1, g2⟩ := replay_loop_undo K st.m_trail 0
      ⟨add_vars K c.1 [], c.2 ++ [c.1], st.m_trail_stack⟩
    have g3 := g2 [] rfl
    simp only [List.nil_append] at g3
    have e : replay_all K st (c :: calls) = replay_all K (replay K st c.1 c.2).1 calls := rfl
    rw [e]
    refine ⟨recs1 ++ recs2, ?_, ?_, ?_⟩
    · rw [h1]
      simp only [replay]
      rw [g1, List.append_assoc]
    · rw [h2]; rfl
    · rw [List.reverse_append, List.foldl_append, h3]
      exact g3

/-- C6 (P5, scope reversibility): after a push, any finite sequence of
`replay` calls, and the matching pop (the undo log replayed in reverse back to
the mark), the trail state is the one at the push; in particular every entry
has the active flag it had at the push. -/
theorem push_replay_pop (K : Collaborators Term Var Dep)
    (self : model_reconstruction_trail Term Var Dep)
    (calls : List (dependent_expr Term Dep × List (dependent_expr Term Dep))) :
    pop_scope (replay_all K (push_scope self) calls) = self ∧
    (pop_scope (replay_all K (push_scope self) calls)).m_trail.map (fun t => t.m_active) =
      self.m_trail.map (fun t => t.m_active) := by
  have key : pop_scope (replay_all K (push_scope self) calls) = self := by
    obtain ⟨recs, h1, h2, h3⟩ := replay_all_undo K calls (push_scope self)
    have hm : (push_scope self).m_scopes.getLast? = some self.m_trail_stack.length :=
      List.getLast?_concat _
    have hs : (push_scope self).m_trail_stack = self.m_trail_stack := rfl
    have hd : (push_scope self).m_scopes.dropLast = self.m_scopes := List.dropLast_concat
    have ht : (push_scope self).m_trail = self.m_trail := rfl
    unfold pop_scope
    rw [h2, h1, hm, hs]
    simp only [List.drop_left, List.take_left, hd, h3, ht]
  exact ⟨key, by rw [key]⟩

/-- The loop of `replay` changes no field of an entry but its active flag, and
that one only from true to false. -/
theorem replay_loop_frame (K : Collaborators Term Var Dep) (ts : List (entry Term Var Dep))
    (i : Nat) (s : replay_state Term Var Dep) :
    List.Forall₂ (fun t u => u.m_subst = t.m_subst ∧ u.rigid = t.rigid ∧
        u.m_removed = t.m_removed ∧ (t.m_active = false → u.m_active = false) ∧
        (u.m_active = true → t.m_active = true))
      ts (replay_loop K i ts s).1 := by
  induction ts generalizing i s with
  | nil => exact List.Forall₂.nil
  | cons t ts ih =>
    simp only [replay_loop]
    refine List.Forall₂.cons ?_ (ih _ _)
    rcases replay_step_cases K i t s with ⟨_, e⟩ | ⟨ha, _, _, e⟩ | ⟨_, _, _, e⟩
    · rw [e]; exact ⟨rfl, rfl, rfl, id, id⟩
    · rw [e]; exact ⟨rfl, rfl, rfl, fun _ => rfl, fun _ => ha⟩
    · rw [e]; exact ⟨rfl, rfl, rfl, id, id⟩

/-- C7 (replay only deactivates): the trail after `replay` has the entries of
the trail before it, in the same number and order, each with the same
substitution, rigid tag and removed set; an entry inactive before is inactive
after, and an entry active after was active before. The scope marks are not
touched. -/
theorem replay_only_deactivates (K : Collaborators Term Var Dep)
    (self : model_reconstruction_trail Term Var Dep) (d : dependent_expr Term Dep)
    (added : List (dependent_expr Term Dep)) :
    (replay K self d added).1.m_trail.length = self.m_trail.length ∧
    List.Forall₂ (fun t u => u.m_subst = t.m_subst ∧ u.rigid = t.rigid ∧
        u.m_removed = t.m_removed ∧ (t.m_active = false → u.m_active = false) ∧
        (u.m_active = true → t.m_active = true))
      self.m_trail (replay K self d added).1.m_trail ∧
    (replay K self d added).1.m_scopes = self.m_scopes :=
  ⟨replay_loop_length K _ _ _, replay_loop_frame K _ _ _, rfl⟩

/-- Along the loop of `replay` the vector `added` grows by the removed sets of
the entries the loop deactivates. -/
theorem replay_loop_added_length (K : Collaborators Term Var Dep)
    (ts : List (entry Term Var Dep)) (i : Nat) (s : replay_state Term Var Dep) :
    (replay_loop K i ts s).2.added.length =
      s.added.length +
        ((deactivated ts (replay_loop K i ts s).1).map (fun t => t.m_removed.length)).sum := by
  induction ts generalizing i s with
  | nil => simp [replay_loop, deactivated]
  | cons t ts ih =>
    simp only [replay_loop]
    rw [ih]
    rcases replay_step_cases K i t s with ⟨_, e⟩ | ⟨ha, _, _, e⟩ | ⟨_, _, _, e⟩
    · rw [e]
      simp [deactivated, List.filter_cons]
    · rw [e]
      simp [deactivated, List.filter_cons, ha]
      omega
    · rw [e]
      simp [deactivated, List.filter_cons]

/-- C8 (replay never fails and never drops a formula): `replay` is a total
function; the returned `added` has the initial length plus one (for `d`) plus
the sizes of the removed sets of exactly the entries this call deactivated,
and at the position where `d` was appended sits `d` rewritten by the rigid
entries the call processed, in trail order (`d` itself when there is none). -/
theorem replay_never_drops (K : Collaborators Term Var Dep)
    (self : model_reconstruction_trail Term Var Dep) (d : dependent_expr Term Dep)
    (added : List (dependent_expr Term Dep)) :
    (replay K self d added).2.length =
      added.length + 1 +
        ((deactivated self.m_trail (replay K self d added).1.m_trail).map
          (fun t => t.m_removed.length)).sum ∧
    (replay K self d added).2[added.length]? =
      some (apply_all K (rigid_processed K 0 self.m_trail
        ⟨add_vars K d [], added ++ [d], self.m_trail_stack⟩) d) := by
  constructor
  · unfold replay
    simp only []
    rw [replay_loop_added_length]
    simp
  · obtain ⟨extra, hadd⟩ := replay_loop_added K self.m_trail 0
      ⟨add_vars K d [], added ++ [d], self.m_trail_stack⟩
    unfold replay
    simp only []
    rw [hadd]
    simp only [List.map_append, List.map_cons, List.map_nil, List.append_assoc,
      List.singleton_append]
    exact getElem?_after _ _ _ _ (by simp)

/-- The loop of `replay` when every active entry that intersects the
free variables is rigid: the entries and the free variables stay as they are and
every element of `added` is rewritten by the intersecting active entries in
trail order. -/
theorem replay_loop_rigid (K : Collaborators Term Var Dep) (ts : List (entry Term Var Dep))
    (i : Nat) (s : replay_state Term Var Dep)
    (h : ∀ t ∈ ts, t.m_active = true → t.intersects s.free_vars = true → t.rigid = true) :
    replay_loop K i ts s =
      (ts, { free_vars := s.free_vars
             added := List.map
               (apply_all K (ts.filter (fun t => t.m_active && t.intersects s.free_vars)))
               s.added
             m_trail_stack := s.m_trail_stack }) := by
  induction ts generalizing i s with
  | nil =>
    have hid : apply_all K ([] : List (entry Term Var Dep)) = id := rfl
    simp [replay_loop, hid]
  | cons t ts ih =>
    simp only [replay_loop]
    have h2 : ∀ u ∈ ts, u.m_active = true → u.intersects s.free_vars = true → u.rigid = true :=
      fun u hu => h u (List.mem_cons_of_mem _ hu)
    rcases replay_step_cases K i t s with ⟨hc, e⟩ | ⟨ha, hi, hr, _⟩ | ⟨ha, hi, _, e⟩
    · rw [e, ih (i + 1) s h2]
      have hf : (t.m_active && t.intersects s.free_vars) = false := by
        rcases hc with hc | hc <;> simp [hc]
      simp [List.filter_cons, hf]
    · rw [h t (List.mem_cons_self _ _) ha hi] at hr; cases hr
    · rw [e]
      simp only []
      rw [ih (i + 1) ⟨s.free_vars, List.map (entry.apply K t) s.added, s.m_trail_stack⟩ h2]
      simp only [List.filter_cons, ha, hi, Bool.and_self, if_true, List.map_map]
      rfl

/-- Rewriting by entries does not read their removed sets. -/
theorem apply_all_without_removed (K : Collaborators Term Var Dep)
    (ts : List (entry Term Var Dep)) (p : entry Term Var Dep → Bool)
    (hp : ∀ t : entry Term Var Dep, p { t with m_removed := [] } = p t)
    (d : dependent_expr Term Dep) :
    apply_all K ((ts.map (fun t => { t with m_removed := [] })).filter p) d =
      apply_all K (ts.filter p) d := by
  induction ts generalizing d with
  | nil => rfl
  | cons t ts ih =>
    simp only [List.map_cons, List.filter_cons, hp t]
    cases p t
    · simpa using ih d
    · simp only [if_true, apply_all_cons]
      exact ih _

/-- C10 (rigid-only replay): when every active entry that intersects the
free variables of `d.fml` is rigid, `replay` started with an empty `added` returns
exactly one element, `d` rewritten successively by each intersecting active
entry in trail order, each step pairing the rewritten formula with the join of
the dependency so far and the dependency of the rewrite; the trail state is as
before (no entry is deactivated), and the result is the same when every
removed set is emptied (no removed set is consulted). -/
theorem replay_rigid_only (K : Collaborators Term Var Dep)
    (self : model_reconstruction_trail Term Var Dep) (d : dependent_expr Term Dep)
    (h : ∀ t ∈ self.m_trail, t.m_active = true → t.intersects (K.freeVars d.fml) = true →
      t.rigid = true) :
    replay K self d [] =
      (self, [apply_all K
        (self.m_trail.filter (fun t => t.m_active && t.intersects (K.freeVars d.fml))) d]) ∧
    (replay K (without_removed self) d []).2 = (replay K self d []).2 := by
  have h0 : add_vars K d [] = K.freeVars d.fml := by simp [add_vars]
  have main : ∀ st : model_reconstruction_trail Term Var Dep,
      (∀ t ∈ st.m_trail, t.m_active = true → t.intersects (K.freeVars d.fml) = true →
        t.rigid = true) →
      replay K st d [] =
        (st, [apply_all K
          (st.m_trail.filter (fun t => t.m_active && t.intersects (K.freeVars d.fml))) d]) := by
    intro st hst
    unfold replay
    simp only [h0, List.nil_append]
    rw [replay_loop_rigid K st.m_trail 0 ⟨K.freeVars d.fml, [d], st.m_trail_stack⟩ hst]
    simp
  refine ⟨main self h, ?_⟩
  have hw : ∀ t ∈ (without_removed self).m_trail, t.m_active = true →
      t.intersects (K.freeVars d.fml) = true → t.rigid = true := by
    intro t ht
    simp only [without_removed, List.mem_map] at ht
    obtain ⟨t0, ht0, rfl⟩ := ht
    exact h t0 ht0
  rw [main self h, main (without_removed self) hw]
  simp only [without_removed]
  rw [apply_all_without_removed K self.m_trail
    (fun t => t.m_active && t.intersects (K.freeVars d.fml)) (fun t => rfl) d]

/-- C10, at a concrete input: Scenario A, the trail [rigid: x -> a+1] and the
formula `x > 0` give `a+1 > 0` with the joined dependency, the entry still
active. -/
theorem replay_rigid_only_witness :
    replay K0 trailA dA [] = (trailA, [⟨mk_gt (mk_add (.var va) (.num 1)) (.num 0), 3⟩]) ∧
    (replay K0 (without_removed trailA) dA []).2 = (replay K0 trailA dA []).2 :=
  ⟨(replay_rigid_only K0 trailA dA (by decide)).1.trans (by decide),
    (replay_rigid_only K0 trailA dA (by decide)).2⟩

end Proofs2

/-! ## Further properties of replay -/

section Proofs3

variable {Term Var Dep : Type} [DecidableEq Var]

/-- C11 (single loose entry): on a trail made of one active loose entry `t`
one of whose substituted variables occurs free in `d.fml`, `replay` started
with an empty `added` returns `d` followed by the formulas of `t.m_removed` in
their stored order with their stored dependencies; `t` is deactivated and the
undo log receives one record, for position 0 with the previous flag value
(true). -/
theorem replay_single_loose (K : Collaborators Term Var Dep)
    (self : model_reconstruction_trail Term Var Dep) (d : dependent_expr Term Dep)
    (t : entry Term Var Dep) (v : Var)
    (h : self.m_trail = [t]) (ha : t.m_active = true) (hl : t.is_loose = true)
    (hv : v ∈ t.m_subst.keys) (hd : v ∈ K.freeVars d.fml) :
    replay K self d [] =
      ({ self with
          m_trail := [{ t with m_active := false }]
          m_trail_stack := self.m_trail_stack ++ [⟨0, true⟩] },
        d :: t.m_removed) := by
  have hint : t.intersects (add_vars K d []) = true :=
    intersects_of_mem t _ v hv (by simp [add_vars, hd])
  have hr : t.rigid = false := by simpa [entry.is_loose] using hl
  unfold replay
  rw [h]
  simp only [replay_loop, List.nil_append]
  rcases replay_step_cases K 0 t ⟨add_vars K d [], [d], self.m_trail_stack⟩ with
    ⟨h1 | h1, _⟩ | ⟨_, _, _, e⟩ | ⟨_, _, h3, _⟩
  · rw [ha] at h1; cases h1
  · rw [hint] at h1; cases h1
  · rw [e]; rfl
  · rw [hr] at h3; cases h3

/-- C11, at a concrete input: Scenario B, the trail [loose: y -> 5 with
removed y < 10] and the formula `y = 5`. -/
theorem replay_single_loose_witness :
    replay K0 trailB dB [] =
      ({ m_trail := [⟨[(vy, .num 5, 1)], false, [⟨mk_lt (.var vy) (.num 10), 4⟩], false⟩]
         m_trail_stack := [⟨0, true⟩]
         m_scopes := [] },
        [dB, ⟨mk_lt (.var vy) (.num 10), 4⟩]) :=
  replay_single_loose K0 trailB dB
    ⟨[(vy, .num 5, 1)], false, [⟨mk_lt (.var vy) (.num 10), 4⟩], true⟩ vy
    rfl rfl rfl (by decide) (by decide)

/-! ## Further properties of get_model_converter -/

/-- The walk of `get_model_converter` skips inactive entries: it is the walk
over the active entries alone. -/
theorem converter_fold_filter (K : Collaborators Term Var Dep) (L : List (entry Term Var Dep))
    (s : converter_state Term Var Dep) :
    L.foldl (converter_step K) s = (L.filter (fun t => t.m_active)).foldl (converter_step K) s := by
  induction L generalizing s with
  | nil => rfl
  | cons t rest ih =>
    cases hact : t.m_active with
    | false =>
      have hstep : converter_step K s t = s := by simp [converter_step, hact]
      simp only [List.foldl_cons, List.filter_cons, hact, hstep]
      exact ih s
    | true =>
      simp only [List.foldl_cons, List.filter_cons, hact, if_true]
      exact ih _

/-- A loop whose body only inserts into `subst` and adds to the model
converter leaves the flag `first` as it is. -/
theorem fold_first (f : converter_state Term Var Dep → Var × Term → converter_state Term Var Dep)
    (hf : ∀ st kv, ∃ X Y, f st kv =
      { st with subst := st.subst.insert kv.1 X Y, mc := st.mc ++ [(kv.1, X)] })
    (kvs : List (Var × Term)) (s : converter_state Term Var Dep) :
    (kvs.foldl f s).first = s.first := by
  induction kvs generalizing s with
  | nil => rfl
  | cons kv kvs ih =>
    simp only [List.foldl_cons]
    obtain ⟨X, Y, e⟩ := hf s kv
    rw [ih, e]

/-- The loop of lines 94-100 leaves the flag `first` as it is. -/
theorem insert_resolved_first (K : Collaborators Term Var Dep) (t : entry Term Var Dep)
    (s : converter_state Term Var Dep) : (insert_resolved K t s).first = s.first :=
  fold_first (resolved_step K t) (fun _ _ => ⟨_, _, rfl⟩) _ s

/-- Once `first` is false every active entry met is resolved against the
current substitution. -/
theorem converter_fold_after_first (K : Collaborators Term Var Dep)
    (L : List (entry Term Var Dep)) (s : converter_state Term Var Dep) (hs : s.first = false) :
    L.foldl (converter_step K) s =
      (L.filter (fun t => t.m_active)).foldl (fun st u => insert_resolved K u st) s := by
  induction L generalizing s with
  | nil => rfl
  | cons t rest ih =>
    cases hact : t.m_active with
    | false =>
      have hstep : converter_step K s t = s := by simp [converter_step, hact]
      simp only [List.foldl_cons, List.filter_cons, hact, hstep]
      exact ih s hs
    | true =>
      have hstep : converter_step K s t = insert_resolved K t s := by
        simp [converter_step, hact, hs]
      simp only [List.foldl_cons, List.filter_cons, hact, if_true, hstep]
      exact ih _ ((insert_resolved_first K t s).trans hs)

/-- The walk of `get_model_converter` over a trail whose newest active entry
is `t`: `t` is inserted verbatim into the empty substitution and the active
entries before it are resolved, newest first. -/
theorem converter_loop_newest (K : Collaborators Term Var Dep)
    (pre post : List (entry Term Var Dep)) (t : entry Term Var Dep)
    (ha : t.m_active = true) (hpost : ∀ u ∈ post, u.m_active = false) :
    converter_loop K (pre ++ t :: post) =
      ((pre.filter (fun u => u.m_active)).reverse).foldl (fun st u => insert_resolved K u st)
        (insert_verbatim K t ⟨false, [], []⟩) := by
  unfold converter_loop
  rw [converter_fold_filter]
  have hpf : post.filter (fun u => u.m_active) = [] := by
    rw [List.filter_eq_nil_iff]
    intro u hu
    simp [hpost u hu]
  have hrev : ((pre ++ t :: post).reverse).filter (fun u => u.m_active) =
      t :: (pre.filter (fun u => u.m_active)).reverse := by
    simp [List.filter_append, List.filter_cons, ha, hpf]
  rw [hrev, List.foldl_cons]
  have hstep : converter_step K ⟨true, [], []⟩ t = insert_verbatim K t ⟨false, [], []⟩ := by
    simp [converter_step, ha]
  have hfirst : (insert_verbatim K t ⟨false, [], []⟩).first = false :=
    fold_first (verbatim_step K t) (fun _ _ => ⟨_, _, rfl⟩) _ _
  rw [hstep, converter_fold_after_first K _ _ hfirst]
  congr 1
  rw [List.filter_eq_self]
  intro u hu
  rw [List.mem_reverse, List.mem_filter] at hu
  exact hu.2

/-- C17 (inactive entries are invisible to model-converter construction):
`get_model_converter` returns the same converter and accumulates the same
substitution as on the trail with all inactive entries deleted; a trail
without an active entry gives the empty substitution and an empty converter;
and the entry inserted verbatim is the newest active entry, whatever inactive
entries follow it, the active entries before it being resolved. -/
theorem converter_ignores_inactive (K : Collaborators Term Var Dep)
    (self : model_reconstruction_trail Term Var Dep) :
    ((get_model_converter K self).2 =
        (get_model_converter K
          { self with m_trail := self.m_trail.filter (fun t => t.m_active) }).2 ∧
      get_model_converter_subst K self =
        get_model_converter_subst K
          { self with m_trail := self.m_trail.filter (fun t => t.m_active) }) ∧
    ((∀ t ∈ self.m_trail, t.m_active = false) →
      get_model_converter_subst K self = [] ∧ (get_model_converter K self).2 = []) ∧
    (∀ (pre post : List (entry Term Var Dep)) (t : entry Term Var Dep),
      self.m_trail = pre ++ t :: post → t.m_active = true →
      (∀ u ∈ post, u.m_active = false) →
      converter_loop K self.m_trail =
        ((pre.filter (fun u => u.m_active)).reverse).foldl
          (fun st u => insert_resolved K u st) (insert_verbatim K t ⟨false, [], []⟩)) := by
  have hloop : converter_loop K self.m_trail =
      converter_loop K (self.m_trail.filter (fun t => t.m_active)) := by
    unfold converter_loop
    rw [converter_fold_filter K self.m_trail.reverse,
      converter_fold_filter K (self.m_trail.filter (fun t => t.m_active)).reverse]
    simp only [List.filter_reverse, List.filter_filter, Bool.and_self]
  refine ⟨⟨?_, ?_⟩, ?_, ?_⟩
  · simp only [get_model_converter, hloop]
  · simp only [get_model_converter_subst, hloop]
  · intro hall
    have hnil : self.m_trail.filter (fun t => t.m_active) = [] := by
      rw [List.filter_eq_nil_iff]
      intro u hu
      simp [hall u hu]
    simp only [get_model_converter, get_model_converter_subst, hloop, hnil]
    exact ⟨rfl, rfl⟩
  · intro pre post t h ha hpost
    rw [h]
    exact converter_loop_newest K pre post t ha hpost

/-- C17, at a concrete input: Scenario C followed by an inactive newest entry
`z -> 3` gives the substitution of Scenario C; `y -> 2`, the newest active
entry, is the one inserted verbatim. -/
theorem converter_ignores_inactive_witness :
    get_model_converter_subst K0 trailCInactive =
      [(vy, .num 2, 1), (vx, mk_add (.num 2) (.num 1), 5)] ∧
    get_model_converter_subst K0 trailCInactive =
      get_model_converter_subst K0
        { trailCInactive with
          m_trail := trailCInactive.m_trail.filter (fun t => t.m_active) } :=
  ⟨by decide, (converter_ignores_inactive K0 trailCInactive).1.2⟩

/-- In a substitution without duplicate keys the dependency looked up for
the variable of a triple is the dependency stored in that triple. -/
theorem dep_of_mem (null : Dep) (S : expr_substitution Term Var Dep) (hnd : S.keys.Nodup)
    (e : Var × Term × Dep) (he : e ∈ S) : S.dep null e.1 = e.2.2 := by
  induction S with
  | nil => cases he
  | cons a S ih =>
    simp only [expr_substitution.keys, List.map_cons, List.nodup_cons] at hnd
    rcases List.mem_cons.mp he with rfl | hmem
    · simp [expr_substitution.dep, List.find?_cons]
    · have hne : a.1 ≠ e.1 := by
        intro heq
        apply hnd.1
        rw [heq]
        exact List.mem_map.mpr ⟨e, hmem, rfl⟩
      have := ih hnd.2 hmem
      simp only [expr_substitution.dep, List.find?_cons, hne, decide_False] at this ⊢
      exact this

/-- The loop of lines 84-88 inserts the triples of `t` as the specification
says, when `t` maps no variable twice. -/
theorem insert_verbatim_spec (K : Collaborators Term Var Dep) (t : entry Term Var Dep)
    (hnd : t.m_subst.keys.Nodup) (s : converter_state Term Var Dep) :
    (insert_verbatim K t s).result = t.m_subst.foldl spec_insert_verbatim s.result := by
  have key : ∀ (l : List (Var × Term × Dep)), (∀ e ∈ l, e ∈ t.m_subst) →
      ∀ s : converter_state Term Var Dep,
      (l.foldl (fun st e => verbatim_step K t st (e.1, e.2.1)) s).result =
        l.foldl spec_insert_verbatim s.result := by
    intro l
    induction l with
    | nil => intro _ s; rfl
    | cons e l ih =>
      intro hl s
      simp only [List.foldl_cons]
      rw [ih (fun x hx => hl x (List.mem_cons_of_mem _ hx))]
      congr 1
      simp only [verbatim_step, converter_state.result, spec_insert_verbatim,
        dep_of_mem K.null t.m_subst hnd e (hl e (List.mem_cons_self _ _))]
  unfold insert_verbatim expr_substitution.sub
  rw [List.foldl_map]
  exact key t.m_subst (fun _ h => h) s

/-- The loop of lines 94-100 inserts the triples of `t` as the specification
says, when `t` maps no variable twice. -/
theorem insert_resolved_spec (K : Collaborators Term Var Dep) (t : entry Term Var Dep)
    (hnd : t.m_subst.keys.Nodup) (s : converter_state Term Var Dep) :
    (insert_resolved K t s).result = t.m_subst.foldl (spec_insert_resolved K) s.result := by
  have key : ∀ (l : List (Var × Term × Dep)), (∀ e ∈ l, e ∈ t.m_subst) →
      ∀ s : converter_state Term Var Dep,
      (l.foldl (fun st e => resolved_step K t st (e.1, e.2.1)) s).result =
        l.foldl (spec_insert_resolved K) s.result := by
    intro l
    induction l with
    | nil => intro _ s; rfl
    | cons e l ih =>
      intro hl s
      simp only [List.foldl_cons]
      rw [ih (fun x hx => hl x (List.mem_cons_of_mem _ hx))]
      congr 1
      simp only [resolved_step, converter_state.result, spec_insert_resolved,
        dep_of_mem K.null t.m_subst hnd e (hl e (List.mem_cons_self _ _))]
  unfold insert_resolved expr_substitution.sub
  rw [List.foldl_map]
  exact key t.m_subst (fun _ h => h) s

/-- Resolving a sequence of entries one after the other is the fold the
specification describes, when no entry maps a variable twice. -/
theorem resolved_fold_spec (K : Collaborators Term Var Dep) (L : List (entry Term Var Dep))
    (hnd : ∀ t ∈ L, t.m_subst.keys.Nodup) (s : converter_state Term Var Dep) :
    (L.foldl (fun st u => insert_resolved K u st) s).result =
      L.foldl (fun acc t => t.m_subst.foldl (spec_insert_resolved K) acc) s.result := by
  induction L generalizing s with
  | nil => rfl
  | cons t L ih =>
    simp only [List.foldl_cons]
    rw [ih (fun u hu => hnd u (List.mem_cons_of_mem _ hu)),
      insert_resolved_spec K t (hnd t (List.mem_cons_self _ _))]

/-- The walk of `get_model_converter` is the composition the specification
describes, when no active entry maps a variable twice. -/
theorem converter_loop_spec (K : Collaborators Term Var Dep) (trail : List (entry Term Var Dep))
    (hwf : ∀ t ∈ trail, t.m_active = true → t.m_subst.keys.Nodup) :
    (converter_loop K trail).result = spec_buildModelConverter K trail := by
  unfold converter_loop spec_buildModelConverter
  rw [converter_fold_filter, List.filter_reverse]
  have hall : ∀ u ∈ (trail.filter (fun t => t.m_active)).reverse,
      u.m_active = true ∧ u.m_subst.keys.Nodup := by
    intro u hu
    rw [List.mem_reverse, List.mem_filter] at hu
    exact ⟨hu.2, hwf u hu.1 hu.2⟩
  generalize (trail.filter (fun t => t.m_active)).reverse = L at hall
  cases L with
  | nil => rfl
  | cons newest older =>
    have ha := (hall newest (List.mem_cons_self _ _)).1
    have hstep : converter_step K ⟨true, [], []⟩ newest =
        insert_verbatim K newest ⟨false, [], []⟩ := by
      simp [converter_step, ha]
    have hfirst : (insert_verbatim K newest ⟨false, [], []⟩).first = false :=
      fold_first (verbatim_step K newest) (fun _ _ => ⟨_, _, rfl⟩) _ _
    have hfilt : older.filter (fun t => t.m_active) = older := by
      rw [List.filter_eq_self]
      intro u hu
      exact (hall u (List.mem_cons_of_mem _ hu)).1
    simp only [List.foldl_cons, spec_compose]
    rw [hstep, converter_fold_after_first K _ _ hfirst, hfilt,
      resolved_fold_spec K older (fun u hu => (hall u (List.mem_cons_of_mem _ hu)).2),
      insert_verbatim_spec K newest (hall newest (List.mem_cons_self _ _)).2]
    rfl

/-- C12 (model-converter composition): on a trail none of whose active entries
maps a variable twice (a substitution holds a variable at most once),
`get_model_converter` is the reverse fold over the active entries the
specification describes: the triples of the newest active entry go into `S`
verbatim, and every triple `(v, def, dep)` of an older active entry goes in as
`(v, rewrite(S, def).term, join(dep, rewrite(S, def).dependency))` with `S`
the substitution accumulated so far; the model converter receives the same
(variable, definition) pairs in the same order. -/
theorem get_model_converter_composition (K : Collaborators Term Var Dep)
    (self : model_reconstruction_trail Term Var Dep)
    (hwf : ∀ t ∈ self.m_trail, t.m_active = true → t.m_subst.keys.Nodup) :
    get_model_converter_subst K self = (spec_buildModelConverter K self.m_trail).1 ∧
    (get_model_converter K self).2 = (spec_buildModelConverter K self.m_trail).2 := by
  have h := converter_loop_spec K self.m_trail hwf
  constructor
  · exact congrArg Prod.fst h
  · exact congrArg Prod.snd h

/-- C12, at a concrete input: Scenario C, the trail [older: x -> y+1,
newer: y -> 2] gives S = {y: 2, x: 2+1}. -/
theorem get_model_converter_composition_witness :
    (spec_buildModelConverter K0 trailC.m_trail).1 =
      [(vy, .num 2, 1), (vx, mk_add (.num 2) (.num 1), 5)] ∧
    get_model_converter_subst K0 trailC = (spec_buildModelConverter K0 trailC.m_trail).1 ∧
    (get_model_converter K0 trailC).2 = (spec_buildModelConverter K0 trailC.m_trail).2 :=
  ⟨by decide, get_model_converter_composition K0 trailC (by decide)⟩

/-! ## The free variables marked by replay -/

/-- What an iteration of the loop of `replay` does to the entry, to the
marked variables and to the undo log does not depend on `added`. -/
theorem replay_step_control (K : Collaborators Term Var Dep) (i : Nat) (t : entry Term Var Dep)
    (s s' : replay_state Term Var Dep) (hfv : s.free_vars = s'.free_vars)
    (hst : s.m_trail_stack = s'.m_trail_stack) :
    (replay_step K i t s).1 = (replay_step K i t s').1 ∧
    (replay_step K i t s).2.free_vars = (replay_step K i t s').2.free_vars ∧
    (replay_step K i t s).2.m_trail_stack = (replay_step K i t s').2.m_trail_stack := by
  unfold replay_step
  rw [hfv, hst]
  cases t.m_active <;> cases t.intersects s'.free_vars <;> cases t.is_loose <;>
    simp [hfv, hst]

/-- The entries, the marked variables, the undo log and the rigid entries
processed by the loop of `replay` do not depend on `added`. -/
theorem replay_loop_control (K : Collaborators Term Var Dep) (ts : List (entry Term Var Dep))
    (i : Nat) (s s' : replay_state Term Var Dep) (hfv : s.free_vars = s'.free_vars)
    (hst : s.m_trail_stack = s'.m_trail_stack) :
    (replay_loop K i ts s).1 = (replay_loop K i ts s').1 ∧
    (replay_loop K i ts s).2.free_vars = (replay_loop K i ts s').2.free_vars ∧
    (replay_loop K i ts s).2.m_trail_stack = (replay_loop K i ts s').2.m_trail_stack ∧
    rigid_processed K i ts s = rigid_processed K i ts s' := by
  induction ts generalizing i s s' with
  | nil => exact ⟨rfl, hfv, hst, rfl⟩
  | cons t ts ih =>
    obtain ⟨h1, h2, h3⟩ := replay_step_control K i t s s' hfv hst
    obtain ⟨g1, g2, g3, g4⟩ := ih (i + 1) (replay_step K i t s).2 (replay_step K i t s').2 h2 h3
    simp only [replay_loop, rigid_processed]
    refine ⟨by rw [h1, g1], g2, g3, ?_⟩
    rw [g4, hfv]

/-- Marking the variables of a sequence of formulas appends their
free variables. -/
theorem foldl_add_vars (K : Collaborators Term Var Dep) (rs : List (dependent_expr Term Dep))
    (fv : List Var) :
    rs.foldl (fun fv r => add_vars K r fv) fv = fv ++ rs.flatMap (fun r => K.freeVars r.fml) := by
  induction rs generalizing fv with
  | nil => simp
  | cons r rs ih =>
    simp only [List.foldl_cons, List.flatMap_cons]
    rw [ih]
    simp [add_vars]

/-- The variables marked after the loop of `replay` are those marked before
it followed by the free variables of the stored removed formulas of the
entries the loop deactivated, in trail order. -/
theorem replay_loop_free_vars (K : Collaborators Term Var Dep) (ts : List (entry Term Var Dep))
    (i : Nat) (s : replay_state Term Var Dep) :
    (replay_loop K i ts s).2.free_vars =
      s.free_vars ++ (deactivated ts (replay_loop K i ts s).1).flatMap (removed_vars K) := by
  induction ts generalizing i s with
  | nil => simp [replay_loop, deactivated]
  | cons t ts ih =>
    simp only [replay_loop]
    rw [ih]
    rcases replay_step_cases K i t s with ⟨_, e⟩ | ⟨ha, _, _, e⟩ | ⟨_, _, _, e⟩
    · rw [e]
      simp [deactivated, List.filter_cons]
    · rw [e]
      simp [deactivated, List.filter_cons, ha, foldl_add_vars, removed_vars]
    · rw [e]
      simp [deactivated, List.filter_cons]

/-- The entries the loop of `replay` leaves for the first `n` entries of a
trail are the first `n` entries it leaves for the whole trail. -/
theorem replay_loop_take (K : Collaborators Term Var Dep) (ts : List (entry Term Var Dep))
    (s : replay_state Term Var Dep) (n : Nat) :
    (replay_loop K 0 (ts.take n) s).1 = (replay_loop K 0 ts s).1.take n := by
  conv_rhs => rw [← List.take_append_drop n ts, replay_loop_append]
  simp only []
  have hlen := replay_loop_length K (ts.take n) 0 s
  by_cases hn : n ≤ ts.length
  · have h1 : (replay_loop K 0 (ts.take n) s).1.length = n := by
      rw [hlen]; simp [hn]
    exact (List.take_left' h1).symm
  · have h2 : ts.drop n = [] := by
      rw [List.drop_eq_nil_iff]
      omega
    rw [h2]
    simp only [replay_loop, List.append_nil]
    symm
    apply List.take_of_length_le
    rw [hlen, List.length_take]
    omega

/-- The state of `replay` after the entries `pre` that start the trail. -/
theorem replay_after_pre (K : Collaborators Term Var Dep)
    (self : model_reconstruction_trail Term Var Dep) (d : dependent_expr Term Dep)
    (added : List (dependent_expr Term Dep)) (pre rest : List (entry Term Var Dep))
    (h : self.m_trail = pre ++ rest) :
    replay_after K self d added pre.length =
      (replay_loop K 0 pre ⟨add_vars K d [], added ++ [d], self.m_trail_stack⟩).2 := by
  unfold replay_after
  rw [h, List.take_left]

/-- An entry intersects no set of variables that holds none of its
substituted variables. -/
theorem not_intersects (t : entry Term Var Dep) (fv : List Var)
    (h : ∀ k ∈ t.m_subst.keys, k ∉ fv) : t.intersects fv = false := by
  simp only [entry.intersects, expr_substitution.sub, List.any_eq_false, List.mem_map]
  rintro kv ⟨e, he, rfl⟩
  simpa using h e.1 (mem_keys_of_mem t.m_subst e he)

/-- An entry a call deactivated is an entry of the trail before the call. -/
theorem mem_of_mem_deactivated (before after : List (entry Term Var Dep))
    (u : entry Term Var Dep) (h : u ∈ deactivated before after) : u ∈ before := by
  simp only [deactivated, List.mem_map, List.mem_filter] at h
  obtain ⟨p, ⟨hp, _⟩, rfl⟩ := h
  exact (List.of_mem_zip hp).1

/-- An entry that is inactive, or that intersects none of the variables marked
when it is visited, is left as it is; the sweep goes on over the entries after
it from the state it had before. -/
theorem replay_entry_skipped (K : Collaborators Term Var Dep)
    (self : model_reconstruction_trail Term Var Dep) (d : dependent_expr Term Dep)
    (added : List (dependent_expr Term Dep)) (pre post : List (entry Term Var Dep))
    (t : entry Term Var Dep) (h : self.m_trail = pre ++ t :: post)
    (hskip : t.m_active = false ∨
      t.intersects (replay_after K self d added pre.length).free_vars = false) :
    (replay K self d added).1.m_trail[pre.length]? = some t ∧
    replay_after K self d added (pre.length + 1) = replay_after K self d added pre.length ∧
    (replay K self d added).2 =
      (replay_loop K (pre.length + 1) post (replay_after K self d added pre.length)).2.added := by
  have hpre := replay_after_pre K self d added pre (t :: post) h
  have hsucc := replay_after_succ K self d added pre post t h
  rw [hpre] at hskip ⊢
  rw [hsucc]
  have hrep : (replay K self d added) =
      ({ self with
          m_trail := (replay_loop K 0 (pre ++ t :: post)
            ⟨add_vars K d [], added ++ [d], self.m_trail_stack⟩).1
          m_trail_stack := (replay_loop K 0 (pre ++ t :: post)
            ⟨add_vars K d [], added ++ [d], self.m_trail_stack⟩).2.m_trail_stack },
        (replay_loop K 0 (pre ++ t :: post)
          ⟨add_vars K d [], added ++ [d], self.m_trail_stack⟩).2.added) := by
    unfold replay
    rw [h]
  rw [hrep, replay_loop_split]
  simp only [Nat.zero_add]
  have hlen := replay_loop_length K pre 0 ⟨add_vars K d [], added ++ [d], self.m_trail_stack⟩
  generalize (replay_loop K 0 pre ⟨add_vars K d [], added ++ [d], self.m_trail_stack⟩) = r1
    at hskip hlen ⊢
  have hstep : replay_step K pre.length t r1.2 = (t, r1.2) := by
    rcases replay_step_cases K pre.length t r1.2 with ⟨_, e⟩ | ⟨ha, hi, _, _⟩ | ⟨ha, hi, _, _⟩
    · exact e
    · rcases hskip with h1 | h1
      · rw [ha] at h1; cases h1
      · rw [hi] at h1; cases h1
    · rcases hskip with h1 | h1
      · rw [ha] at h1; cases h1
      · rw [hi] at h1; cases h1
  rw [hstep]
  exact ⟨getElem?_after _ _ _ _ hlen, rfl, rfl⟩

/-- The variables marked when the entry at position `n` is visited. -/
theorem replay_after_free_vars (K : Collaborators Term Var Dep)
    (self : model_reconstruction_trail Term Var Dep) (d : dependent_expr Term Dep)
    (added : List (dependent_expr Term Dep)) (n : Nat) :
    (replay_after K self d added n).free_vars =
      K.freeVars d.fml ++
        (deactivated (self.m_trail.take n)
          ((replay K self d added).1.m_trail.take n)).flatMap (removed_vars K) := by
  unfold replay_after
  rw [replay_loop_free_vars, replay_loop_take]
  simp [add_vars, replay]

/-- C14 (single sweep, no fixed point): an entry `t1`, active or not, none of
whose substituted variables occurs free in `d.fml` or in a removed formula of an
entry before it is skipped when the sweep visits it and is never revisited:
it is unchanged (still active) after the call, the state of the loop after it
is the state before it, and the result is the sweep over the entries after
`t1` alone, whatever removed formulas these return to `added`. -/
theorem replay_single_sweep (K : Collaborators Term Var Dep)
    (self : model_reconstruction_trail Term Var Dep) (d : dependent_expr Term Dep)
    (added : List (dependent_expr Term Dep)) (pre post : List (entry Term Var Dep))
    (t1 : entry Term Var Dep) (h : self.m_trail = pre ++ t1 :: post)
    (hno : ∀ k ∈ t1.m_subst.keys,
      k ∉ K.freeVars d.fml ∧ ∀ u ∈ pre, k ∉ removed_vars K u) :
    (replay K self d added).1.m_trail[pre.length]? = some t1 ∧
    replay_after K self d added (pre.length + 1) = replay_after K self d added pre.length ∧
    (replay K self d added).2 =
      (replay_loop K (pre.length + 1) post (replay_after K self d added pre.length)).2.added := by
  apply replay_entry_skipped K self d added pre post t1 h
  right
  apply not_intersects
  intro k hk hmem
  rw [replay_after_free_vars, List.mem_append, List.mem_flatMap] at hmem
  rcases hmem with hmem | ⟨u, hu, hku⟩
  · exact (hno k hk).1 hmem
  · have hu2 := mem_of_mem_deactivated _ _ u hu
    rw [h, List.take_left] at hu2
    exact (hno k hk).2 u hu2 hku

/-- C14, at a concrete input: on the trail [loose: x -> 1 with removed x < 4,
loose: y -> 5 with removed x < y] the replay of `y = 5` returns `x < y` in
`added` and deactivates the second entry, while the first entry, which
substitutes `x`, stays active. -/
theorem replay_single_sweep_witness :
    (replay K0 trailSweep dB []).2 = [dB, ⟨mk_lt (.var vx) (.var vy), 4⟩] ∧
    ((replay K0 trailSweep dB []).1.m_trail.map (fun t => t.m_active)) = [true, false] ∧
    ((replay K0 trailSweep dB []).1.m_trail[0]? =
        some ⟨[(vx, .num 1, 1)], false, [⟨mk_lt (.var vx) (.num 4), 16⟩], true⟩ ∧
      replay_after K0 trailSweep dB [] (0 + 1) = replay_after K0 trailSweep dB [] 0 ∧
      (replay K0 trailSweep dB []).2 =
        (replay_loop K0 (0 + 1)
          [⟨[(vy, .num 5, 8)], false, [⟨mk_lt (.var vx) (.var vy), 4⟩], true⟩]
          (replay_after K0 trailSweep dB [] 0)).2.added) :=
  ⟨by decide, by decide,
    replay_single_sweep K0 trailSweep dB [] []
      [⟨[(vy, .num 5, 8)], false, [⟨mk_lt (.var vx) (.var vy), 4⟩], true⟩]
      ⟨[(vx, .num 1, 1)], false, [⟨mk_lt (.var vx) (.num 4), 16⟩], true⟩ rfl (by decide)⟩

/-- C18 (the frontier is never enlarged by rigid rewriting): the set
of variables an entry is tested against when it is visited is exactly the
free variables of `d.fml` followed by the free variables of the stored (not
rewritten) removed formulas of the entries deactivated earlier in the same
call; nothing a rigid entry writes into `added` enters it. So an active entry
(a loose one in particular) none of whose substituted variables is in that
set is left as it is, whatever variables the rigid definitions brought into
`added`. -/
theorem frontier_ignores_rigid (K : Collaborators Term Var Dep)
    (self : model_reconstruction_trail Term Var Dep) (d : dependent_expr Term Dep)
    (added : List (dependent_expr Term Dep)) :
    (∀ n, (replay_after K self d added n).free_vars =
      K.freeVars d.fml ++
        (deactivated (self.m_trail.take n)
          ((replay K self d added).1.m_trail.take n)).flatMap (removed_vars K)) ∧
    (∀ (pre post : List (entry Term Var Dep)) (t : entry Term Var Dep),
      self.m_trail = pre ++ t :: post →
      (∀ k ∈ t.m_subst.keys, k ∉ K.freeVars d.fml ∧
        ∀ u ∈ deactivated pre ((replay K self d added).1.m_trail.take pre.length),
          k ∉ removed_vars K u) →
      (replay K self d added).1.m_trail[pre.length]? = some t) := by
  refine ⟨replay_after_free_vars K self d added, ?_⟩
  intro pre post t h hno
  refine (replay_entry_skipped K self d added pre post t h ?_).1
  right
  apply not_intersects
  intro k hk hmem
  rw [replay_after_free_vars, List.mem_append, List.mem_flatMap] at hmem
  rcases hmem with hmem | ⟨u, hu, hku⟩
  · exact (hno k hk).1 hmem
  · rw [h, List.take_left] at hu
    exact (hno k hk).2 u hu hku

/-- C18, at a concrete input: on the trail [rigid: x -> a+1, loose: a -> 7
with removed a < 9] the replay of `x > 0` returns `a+1 > 0`; the only variable
marked is `x`, and the loose entry, which substitutes `a`, is left active. -/
theorem frontier_ignores_rigid_witness :
    (replay K0 trailRigidThenLoose dA []).2 =
      [⟨mk_gt (mk_add (.var va) (.num 1)) (.num 0), 3⟩] ∧
    (replay_after K0 trailRigidThenLoose dA [] 2).free_vars = [vx] ∧
    (replay K0 trailRigidThenLoose dA []).1.m_trail[1]? =
      some ⟨[(va, .num 7, 8)], false, [⟨mk_lt (.var va) (.num 9), 4⟩], true⟩ :=
  ⟨by decide,
    ((frontier_ignores_rigid K0 trailRigidThenLoose dA []).1 2).trans (by decide),
    (frontier_ignores_rigid K0 trailRigidThenLoose dA []).2
      [⟨[(vx, mk_add (.var va) (.num 1), 1)], true, [], true⟩] []
      ⟨[(va, .num 7, 8)], false, [⟨mk_lt (.var va) (.num 9), 4⟩], true⟩ rfl (by decide)⟩

/-- No rigid entry is processed when no active rigid entry intersects
the variables marked when it is visited. -/
theorem rigid_processed_nil (K : Collaborators Term Var Dep) (ts : List (entry Term Var Dep))
    (i : Nat) (s : replay_state Term Var Dep)
    (h : ∀ (pre post : List (entry Term Var Dep)) (t : entry Term Var Dep),
      ts = pre ++ t :: post → t.m_active = true → t.rigid = true →
      t.intersects (replay_loop K i pre s).2.free_vars = false) :
    rigid_processed K i ts s = [] := by
  induction ts generalizing i s with
  | nil => rfl
  | cons t ts ih =>
    have h0 := h [] ts t rfl
    simp only [replay_loop] at h0
    have hf : (t.m_active && t.intersects s.free_vars && t.rigid) = false := by
      cases ha : t.m_active <;> cases hr : t.rigid <;> simp
      exact h0 ha hr
    simp only [rigid_processed, hf, Bool.false_eq_true, if_false]
    apply ih
    intro pre post t' heq ha hr
    have := h (t :: pre) post t' (by rw [heq]; rfl) ha hr
    simpa [replay_loop] using this

/-- C19 (replay appends to the caller's `added`): the elements `added` held
before the call stay, in their positions, at the front of the result, each
rewritten by the rigid entries the call processes, exactly as `d` (which
follows them) is; they are unchanged when no active rigid entry intersects
the variables marked when it is visited.
Their free variables are never marked: the trail after the call, the rigid
entries processed and the variables marked at every position are those of the
call started with an empty `added`. -/
theorem replay_keeps_initial (K : Collaborators Term Var Dep)
    (self : model_reconstruction_trail Term Var Dep) (d : dependent_expr Term Dep)
    (added : List (dependent_expr Term Dep)) :
    (replay K self d added).2.take added.length =
      added.map (apply_all K (replay_rigid_processed K self d added)) ∧
    (replay K self d added).2[added.length]? =
      some (apply_all K (replay_rigid_processed K self d added) d) ∧
    ((∀ (pre post : List (entry Term Var Dep)) (t : entry Term Var Dep),
        self.m_trail = pre ++ t :: post → t.m_active = true → t.rigid = true →
        t.intersects (replay_after K self d added pre.length).free_vars = false) →
      (replay K self d added).2.take added.length = added) ∧
    replay_rigid_processed K self d added = replay_rigid_processed K self d [] ∧
    (replay K self d added).1 = (replay K self d []).1 ∧
    (∀ n, (replay_after K self d added n).free_vars =
      (replay_after K self d [] n).free_vars) := by
  obtain ⟨extra, hadd⟩ := replay_loop_added K self.m_trail 0
    ⟨add_vars K d [], added ++ [d], self.m_trail_stack⟩
  have hres : (replay K self d added).2 =
      added.map (apply_all K (replay_rigid_processed K self d added)) ++
        apply_all K (replay_rigid_processed K self d added) d :: extra := by
    unfold replay replay_rigid_processed
    simp only []
    rw [hadd]
    simp
  have htake : (replay K self d added).2.take added.length =
      added.map (apply_all K (replay_rigid_processed K self d added)) := by
    rw [hres]
    exact List.take_left' (by simp)
  have hctl := replay_loop_control K self.m_trail 0
    ⟨add_vars K d [], added ++ [d], self.m_trail_stack⟩
    ⟨add_vars K d [], [] ++ [d], self.m_trail_stack⟩ rfl rfl
  refine ⟨htake, ?_, ?_, hctl.2.2.2, ?_, ?_⟩
  · rw [hres]
    exact getElem?_after _ _ _ _ (by simp)
  · intro hno
    have hnil : replay_rigid_processed K self d added = [] := by
      unfold replay_rigid_processed
      apply rigid_processed_nil
      intro pre post t heq ha hr
      have := hno pre post t heq ha hr
      rw [replay_after_pre K self d added pre (t :: post) heq] at this
      exact this
    rw [htake, hnil]
    have hid : apply_all K ([] : List (entry Term Var Dep)) = id := rfl
    simp [hid]
  · unfold replay
    simp only []
    rw [hctl.1, hctl.2.2.1]
  · intro n
    unfold replay_after
    exact (replay_loop_control K (self.m_trail.take n) 0
      ⟨add_vars K d [], added ++ [d], self.m_trail_stack⟩
      ⟨add_vars K d [], [] ++ [d], self.m_trail_stack⟩ rfl rfl).2.1

/-- C19, at a concrete input: on the trail [rigid: x -> a+1] the replay of
`x > 0` with `added` holding `x < 4` returns `a+1 < 4` followed by `a+1 > 0`. -/
theorem replay_keeps_initial_witness :
    (replay K0 trailA dA [dX4]).2 =
      [⟨mk_lt (mk_add (.var va) (.num 1)) (.num 4), 5⟩,
       ⟨mk_gt (mk_add (.var va) (.num 1)) (.num 0), 3⟩] ∧
    (replay K0 trailA dA [dX4]).2.take 1 =
      [dX4].map (apply_all K0 (replay_rigid_processed K0 trailA dA [dX4])) :=
  ⟨by decide, (replay_keeps_initial K0 trailA dA [dX4]).1⟩

/-! ## What a rigid step rewrites -/

/-- The vector `added` after the loop of `replay`: the elements present before
the loop, each rewritten by the rigid entries processed, followed by what the
loop returns when it starts with an empty `added`. -/
theorem replay_loop_added_split (K : Collaborators Term Var Dep)
    (ts : List (entry Term Var Dep)) (i : Nat) (s : replay_state Term Var Dep) :
    (replay_loop K i ts s).2.added =
      s.added.map (apply_all K (rigid_processed K i ts s)) ++
        (replay_loop K i ts { s with added := [] }).2.added := by
  induction ts generalizing i s with
  | nil =>
    have hid : apply_all K ([] : List (entry Term Var Dep)) = id := rfl
    simp [replay_loop, rigid_processed, hid]
  | cons t ts ih =>
    simp only [replay_loop, rigid_processed]
    rcases replay_step_cases K i t s with ⟨hc, e⟩ | ⟨ha, hi, hr, e⟩ | ⟨ha, hi, hr, e⟩
    · have hf : (t.m_active && t.intersects s.free_vars && t.rigid) = false := by
        rcases hc with hc | hc <;> simp [hc]
      have e0 : replay_step K i t { s with added := [] } = (t, { s with added := [] }) := by
        unfold replay_step
        rcases hc with hc | hc <;> simp [hc]
      rw [e, e0, hf]
      simpa using ih (i + 1) s
    · have hf : (t.m_active && t.intersects s.free_vars && t.rigid) = false := by simp [hr]
      have e0 : replay_step K i t { s with added := [] } =
          ({ t with m_active := false },
           { free_vars := t.m_removed.foldl (fun fv r => add_vars K r fv) s.free_vars
             added := t.m_removed
             m_trail_stack := s.m_trail_stack ++ [⟨i, true⟩] }) := by
        unfold replay_step
        simp [ha, hi, hr, entry.is_loose]
      rw [e, e0, hf]
      simp only [Bool.false_eq_true, if_false]
      have h1 := ih (i + 1)
        { free_vars := t.m_removed.foldl (fun fv r => add_vars K r fv) s.free_vars
          added := s.added ++ t.m_removed
          m_trail_stack := s.m_trail_stack ++ [⟨i, true⟩] }
      have h2 := ih (i + 1)
        { free_vars := t.m_removed.foldl (fun fv r => add_vars K r fv) s.free_vars
          added := t.m_removed
          m_trail_stack := s.m_trail_stack ++ [⟨i, true⟩] }
      have h3 := (replay_loop_control K ts (i + 1)
        { free_vars := t.m_removed.foldl (fun fv r => add_vars K r fv) s.free_vars
          added := s.added ++ t.m_removed
          m_trail_stack := s.m_trail_stack ++ [⟨i, true⟩] }
        { free_vars := t.m_removed.foldl (fun fv r => add_vars K r fv) s.free_vars
          added := t.m_removed
          m_trail_stack := s.m_trail_stack ++ [⟨i, true⟩] } rfl rfl).2.2.2
      rw [h1, h2, h3]
      simp
    · have hf : (t.m_active && t.intersects s.free_vars && t.rigid) = true := by
        simp [ha, hi, hr]
      have e0 : replay_step K i t { s with added := [] } = (t, { s with added := [] }) := by
        unfold replay_step
        simp [ha, hi, hr, entry.is_loose]
      rw [e, e0, hf]
      simp only [if_true]
      have h1 := ih (i + 1) { s with added := s.added.map (entry.apply K t) }
      rw [h1]
      simp only [List.map_map]
      rfl

/-- C15 (a rigid step rewrites the whole current `added`): when the sweep
visits an active rigid entry `t` that intersects the variables marked so far,
every element `added` holds at that moment is replaced in place by its
rewriting under `t` (the rewritten formula paired with the join of the old
dependency and the dependency of the rewrite): `added` keeps its length and
order, and nothing else in the state changes. The formulas appended after
that are what the sweep over the later entries returns from an empty `added`,
so `t` does not rewrite them; `t` itself is left as it is. -/
theorem rigid_rewrites_added (K : Collaborators Term Var Dep)
    (self : model_reconstruction_trail Term Var Dep) (d : dependent_expr Term Dep)
    (added : List (dependent_expr Term Dep)) (pre post : List (entry Term Var Dep))
    (t : entry Term Var Dep) (h : self.m_trail = pre ++ t :: post)
    (ha : t.m_active = true) (hr : t.rigid = true)
    (hi : t.intersects (replay_after K self d added pre.length).free_vars = true) :
    replay_after K self d added (pre.length + 1) =
      { replay_after K self d added pre.length with
        added := (replay_after K self d added pre.length).added.map (entry.apply K t) } ∧
    (replay K self d added).2 =
      ((replay_after K self d added pre.length).added.map (entry.apply K t)).map
          (apply_all K (rigid_processed K (pre.length + 1) post
            (replay_after K self d added (pre.length + 1)))) ++
        (replay_loop K (pre.length + 1) post
          { replay_after K self d added (pre.length + 1) with added := [] }).2.added ∧
    (replay K self d added).1.m_trail[pre.length]? = some t := by
  have hpre := replay_after_pre K self d added pre (t :: post) h
  have hsucc := replay_after_succ K self d added pre post t h
  have hrep : (replay K self d added) =
      ({ self with
          m_trail := (replay_loop K 0 (pre ++ t :: post)
            ⟨add_vars K d [], added ++ [d], self.m_trail_stack⟩).1
          m_trail_stack := (replay_loop K 0 (pre ++ t :: post)
            ⟨add_vars K d [], added ++ [d], self.m_trail_stack⟩).2.m_trail_stack },
        (replay_loop K 0 (pre ++ t :: post)
          ⟨add_vars K d [], added ++ [d], self.m_trail_stack⟩).2.added) := by
    unfold replay
    rw [h]
  have hlen := replay_loop_length K pre 0 ⟨add_vars K d [], added ++ [d], self.m_trail_stack⟩
  rw [hpre] at hi
  have hstep : replay_step K pre.length t
      (replay_loop K 0 pre ⟨add_vars K d [], added ++ [d], self.m_trail_stack⟩).2 =
      (t, { (replay_loop K 0 pre ⟨add_vars K d [], added ++ [d], self.m_trail_stack⟩).2 with
            added := (replay_loop K 0 pre
              ⟨add_vars K d [], added ++ [d], self.m_trail_stack⟩).2.added.map
                (entry.apply K t) }) := by
    rcases replay_step_cases K pre.length t
      (replay_loop K 0 pre ⟨add_vars K d [], added ++ [d], self.m_trail_stack⟩).2 with
      ⟨h1 | h1, _⟩ | ⟨_, _, h2, _⟩ | ⟨_, _, _, e⟩
    · rw [ha] at h1; cases h1
    · rw [hi] at h1; cases h1
    · rw [hr] at h2; cases h2
    · exact e
  rw [hsucc, hpre, hrep, replay_loop_split]
  simp only [Nat.zero_add, hstep]
  refine ⟨trivial, ?_, getElem?_after _ _ _ _ hlen⟩
  rw [replay_loop_added_split]

/-- C15, at a concrete input: on the trail [loose: y -> 5 with removed y < z,
rigid: z -> 3, loose: a -> 7 with removed z < a] the replay of `y = a` gives
`y = a`, `y < 3` and `z < a`: the rigid entry rewrites `y < z`, which was in
`added` when it was visited, and not `z < a`, appended after it. -/
theorem rigid_rewrites_added_witness :
    (replay K0 trailThree dYA []).2 =
      [dYA, ⟨mk_lt (.var vy) (.num 3), 12⟩, ⟨mk_lt (.var vz) (.var va), 32⟩] ∧
    (replay_after K0 trailThree dYA [] 1).added = [dYA, ⟨mk_lt (.var vy) (.var vz), 4⟩] ∧
    replay_after K0 trailThree dYA [] (1 + 1) =
      { replay_after K0 trailThree dYA [] 1 with
        added := (replay_after K0 trailThree dYA [] 1).added.map
          (entry.apply K0 ⟨[(vz, .num 3, 8)], true, [], true⟩) } :=
  ⟨by decide, by decide,
    (rigid_rewrites_added K0 trailThree dYA []
      [⟨[(vy, .num 5, 1)], false, [⟨mk_lt (.var vy) (.var vz), 4⟩], true⟩]
      [⟨[(va, .num 7, 16)], false, [⟨mk_lt (.var vz) (.var va), 32⟩], true⟩]
      ⟨[(vz, .num 3, 8)], true, [], true⟩ rfl rfl rfl (by decide)).1⟩

/-! ## Invalidation within one call -/

/-- The rigid entries processed over a concatenation. -/
theorem rigid_processed_append (K : Collaborators Term Var Dep)
    (l1 l2 : List (entry Term Var Dep)) (i : Nat) (s : replay_state Term Var Dep) :
    rigid_processed K i (l1 ++ l2) s =
      rigid_processed K i l1 s ++
        rigid_processed K (i + l1.length) l2 (replay_loop K i l1 s).2 := by
  induction l1 generalizing i s with
  | nil => simp [rigid_processed, replay_loop]
  | cons t ts ih =>
    have e : i + 1 + ts.length = i + (ts.length + 1) := by omega
    have key := ih (i + 1) (replay_step K i t s).2
    rw [e] at key
    rw [List.cons_append]
    simp only [rigid_processed, replay_loop, List.length_cons, key]
    split <;> simp

/-- Rewriting by a concatenation of entries. -/
theorem apply_all_append (K : Collaborators Term Var Dep) (l1 l2 : List (entry Term Var Dep))
    (d : dependent_expr Term Dep) :
    apply_all K (l1 ++ l2) d = apply_all K l2 (apply_all K l1 d) := by
  simp [apply_all, List.foldl_append]

/-- An entry that is active before the call and inactive after it went
through the loose branch: it was active, loose and intersecting when
visited. -/
theorem step_of_deactivated (K : Collaborators Term Var Dep) (i : Nat) (t : entry Term Var Dep)
    (s : replay_state Term Var Dep) (ha : t.m_active = true)
    (hd : (replay_step K i t s).1.m_active = false) :
    replay_step K i t s =
      ({ t with m_active := false },
       { free_vars := t.m_removed.foldl (fun fv r => add_vars K r fv) s.free_vars
         added := s.added ++ t.m_removed
         m_trail_stack := s.m_trail_stack ++ [⟨i, true⟩] }) := by
  rcases replay_step_cases K i t s with ⟨_, e⟩ | ⟨_, _, _, e⟩ | ⟨_, _, _, e⟩
  · rw [e] at hd; simp only [] at hd; rw [ha] at hd; cases hd
  · exact e
  · rw [e] at hd; simp only [] at hd; rw [ha] at hd; cases hd

/-- C13 (forward transitive invalidation): when a call of `replay`
deactivates the loose entry `t1` and a removed formula of `t1` has a
free variable substituted by an active loose entry `t2` positioned after `t1`,
then, whether or not a variable of `t2` occurs in `d.fml`, the call
deactivates `t2` too and appends `t2.m_removed` to `added` when it visits
`t2`; the returned `added` holds the removed formulas of `t1` and, after them,
those of `t2`, each block in its stored order and in the form the rigid
entries processed after its entry gave it. -/
theorem invalidation_propagates (K : Collaborators Term Var Dep)
    (self : model_reconstruction_trail Term Var Dep) (d : dependent_expr Term Dep)
    (added : List (dependent_expr Term Dep)) (pre mid post : List (entry Term Var Dep))
    (t1 t2 : entry Term Var Dep) (r : dependent_expr Term Dep) (v : Var)
    (h : self.m_trail = pre ++ t1 :: (mid ++ t2 :: post))
    (ha1 : t1.m_active = true)
    (hd1 : ((replay K self d added).1.m_trail[pre.length]?).map (fun u => u.m_active) =
      some false)
    (ha2 : t2.m_active = true) (hl2 : t2.is_loose = true)
    (hr : r ∈ t1.m_removed) (hv : v ∈ t2.m_subst.keys) (hvr : v ∈ K.freeVars r.fml) :
    ((replay K self d added).1.m_trail[pre.length + 1 + mid.length]?).map
        (fun u => u.m_active) = some false ∧
    (replay_after K self d added (pre.length + 1 + mid.length + 1)).added =
      (replay_after K self d added (pre.length + 1 + mid.length)).added ++ t2.m_removed ∧
    ∃ A B C, (replay K self d added).2 =
      A ++ t1.m_removed.map (apply_all K (rigid_processed K (pre.length + 1)
              (mid ++ t2 :: post) (replay_after K self d added (pre.length + 1)))) ++ B ++
        t2.m_removed.map (apply_all K (rigid_processed K (pre.length + 1 + mid.length + 1)
              post (replay_after K self d added (pre.length + 1 + mid.length + 1)))) ++ C := by
  have hidx : (pre ++ t1 :: mid).length = pre.length + 1 + mid.length := by
    simp only [List.length_append, List.length_cons]; omega
  have h' : self.m_trail = (pre ++ t1 :: mid) ++ t2 :: post := by rw [h]; simp
  have hs1 := replay_after_succ K self d added pre (mid ++ t2 :: post) t1 h
  have hsP := replay_after_pre K self d added (pre ++ t1 :: mid) (t2 :: post) h'
  have hs2 := replay_after_succ K self d added (pre ++ t1 :: mid) post t2 h'
  have hrep : (replay K self d added) =
      ({ self with
          m_trail := (replay_loop K 0 (pre ++ t1 :: (mid ++ t2 :: post))
            ⟨add_vars K d [], added ++ [d], self.m_trail_stack⟩).1
          m_trail_stack := (replay_loop K 0 (pre ++ t1 :: (mid ++ t2 :: post))
            ⟨add_vars K d [], added ++ [d], self.m_trail_stack⟩).2.m_trail_stack },
        (replay_loop K 0 (pre ++ t1 :: (mid ++ t2 :: post))
          ⟨add_vars K d [], added ++ [d], self.m_trail_stack⟩).2.added) := by
    unfold replay
    rw [h]
  rw [hidx] at hsP hs2
  rw [replay_loop_split K pre mid t1] at hsP hs2
  rw [replay_loop_split K pre (mid ++ t2 :: post) t1, replay_loop_split K mid post t2] at hrep
  simp only [Nat.zero_add] at hsP hs2 hrep
  have hlen1 := replay_loop_length K pre 0 ⟨add_vars K d [], added ++ [d], self.m_trail_stack⟩
  generalize (replay_loop K 0 pre ⟨add_vars K d [], added ++ [d], self.m_trail_stack⟩) = r1
    at hs1 hsP hs2 hrep hlen1
  -- the iteration for `t1` takes the loose branch
  have hd1' : (replay_step K pre.length t1 r1.2).1.m_active = false := by
    rw [hrep] at hd1
    simp only [] at hd1
    rw [getElem?_after _ _ _ _ hlen1] at hd1
    simpa using hd1
  have e1 := step_of_deactivated K pre.length t1 r1.2 ha1 hd1'
  rw [e1] at hs1 hsP hs2 hrep
  simp only [] at hs1 hsP hs2 hrep
  generalize hS1 : ({ free_vars := t1.m_removed.foldl (fun fv r => add_vars K r fv)
                        r1.2.free_vars
                      added := r1.2.added ++ t1.m_removed
                      m_trail_stack := r1.2.m_trail_stack ++ [⟨pre.length, true⟩] } :
      replay_state Term Var Dep) = s1 at hs1 hsP hs2 hrep
  have hs1a : s1.added = r1.2.added ++ t1.m_removed := by rw [← hS1]
  have hs1v : v ∈ s1.free_vars := by
    rw [← hS1]
    simp only [foldl_add_vars, List.mem_append, List.mem_flatMap]
    exact Or.inr ⟨r, hr, hvr⟩
  have hlenm := replay_loop_length K mid (pre.length + 1) s1
  obtain ⟨Em, hEm⟩ := replay_loop_added K mid (pre.length + 1) s1
  have hRS1 := rigid_processed_append K mid (t2 :: post) (pre.length + 1) s1
  have hmv := replay_loop_free_vars_mono K mid (pre.length + 1) s1 v hs1v
  generalize (replay_loop K (pre.length + 1) mid s1) = rm
    at hsP hs2 hrep hlenm hEm hRS1 hmv
  -- the iteration for `t2` takes the loose branch
  have hint := intersects_of_mem t2 rm.2.free_vars v hv hmv
  have hrig : t2.rigid = false := by simpa [entry.is_loose] using hl2
  have e2 : replay_step K (pre.length + 1 + mid.length) t2 rm.2 =
      ({ t2 with m_active := false },
       { free_vars := t2.m_removed.foldl (fun fv r => add_vars K r fv) rm.2.free_vars
         added := rm.2.added ++ t2.m_removed
         m_trail_stack := rm.2.m_trail_stack ++ [⟨pre.length + 1 + mid.length, true⟩] }) := by
    rcases replay_step_cases K (pre.length + 1 + mid.length) t2 rm.2 with
      ⟨h1 | h1, _⟩ | ⟨_, _, _, e⟩ | ⟨_, _, h3, _⟩
    · rw [ha2] at h1; cases h1
    · rw [hint] at h1; cases h1
    · exact e
    · rw [hrig] at h3; cases h3
  have hf2 : (t2.m_active && t2.intersects rm.2.free_vars && t2.rigid) = false := by
    simp [hrig]
  simp only [rigid_processed, hf2, Bool.false_eq_true, if_false] at hRS1
  rw [e2] at hs2 hrep hRS1
  simp only [] at hs2 hrep hRS1
  generalize hS2 : ({ free_vars := t2.m_removed.foldl (fun fv r => add_vars K r fv)
                        rm.2.free_vars
                      added := rm.2.added ++ t2.m_removed
                      m_trail_stack := rm.2.m_trail_stack ++
                        [⟨pre.length + 1 + mid.length, true⟩] } :
      replay_state Term Var Dep) = s2 at hs2 hrep hRS1
  have hs2a : s2.added = rm.2.added ++ t2.m_removed := by rw [← hS2]
  obtain ⟨Ep, hEp⟩ := replay_loop_added K post (pre.length + 1 + mid.length + 1) s2
  refine ⟨?_, ?_, ?_⟩
  · rw [hrep]
    simp only []
    have hl : (r1.1 ++ ({ t1 with m_active := false } : entry Term Var Dep) :: rm.1).length =
        pre.length + 1 + mid.length := by
      simp only [List.length_append, List.length_cons, hlen1, hlenm]; omega
    have hassoc : r1.1 ++ ({ t1 with m_active := false } : entry Term Var Dep) ::
          (rm.1 ++ ({ t2 with m_active := false } : entry Term Var Dep) ::
            (replay_loop K (pre.length + 1 + mid.length + 1) post s2).1) =
        (r1.1 ++ ({ t1 with m_active := false } : entry Term Var Dep) :: rm.1) ++
          ({ t2 with m_active := false } : entry Term Var Dep) ::
            (replay_loop K (pre.length + 1 + mid.length + 1) post s2).1 := by simp
    rw [hassoc, getElem?_after _ _ _ _ hl]
    rfl
  · rw [hs2, hsP, hs2a]
  · rw [hs1, hs2, hRS1, hrep]
    simp only []
    rw [hEp, hs2a, hEm, hs1a]
    refine ⟨r1.2.added.map (apply_all K (rigid_processed K (pre.length + 1) mid s1 ++
        rigid_processed K (pre.length + 1 + mid.length + 1) post s2)),
      Em.map (apply_all K (rigid_processed K (pre.length + 1 + mid.length + 1) post s2)),
      Ep, ?_⟩
    simp only [List.map_append, List.map_map, List.append_assoc]
    congr 1
    · apply List.map_congr_left
      intro x _
      simp [apply_all_append]
    · congr 1
      apply List.map_congr_left
      intro x _
      simp [apply_all_append]

/-- C13, at a concrete input: on the trail [loose: y -> 5 with removed y < z,
loose: z -> 3 with removed z < 9] the replay of `y = 5`, in which `z` does not
occur, deactivates both entries and returns `y = 5`, `y < z`, `z < 9`. -/
theorem invalidation_propagates_witness :
    (replay K0 trailChain dB []).2 =
      [dB, ⟨mk_lt (.var vy) (.var vz), 4⟩, ⟨mk_lt (.var vz) (.num 9), 16⟩] ∧
    vz ∉ K0.freeVars dB.fml ∧
    ((replay K0 trailChain dB []).1.m_trail[1]?).map (fun u => u.m_active) = some false :=
  ⟨by decide, by decide,
    (invalidation_propagates K0 trailChain dB [] [] [] []
      ⟨[(vy, .num 5, 1)], false, [⟨mk_lt (.var vy) (.var vz), 4⟩], true⟩
      ⟨[(vz, .num 3, 8)], false, [⟨mk_lt (.var vz) (.num 9), 16⟩], true⟩
      ⟨mk_lt (.var vy) (.var vz), 4⟩ vz
      rfl rfl (by decide) rfl rfl (by decide) (by decide) (by decide)).1⟩

/-- C16, the code at a failing input: on the trail [rigid: x -> a+1,
loose: a -> 7 with removed a < 9] the replay of `x > 0` returns `a+1 > 0` and
leaves the trail as it was; the loose entry is still active although
the variable `a` it substitutes occurs free in the returned formula. -/
theorem replay_leaves_loose_on_result_variable :
    (replay K0 trailRigidThenLoose dA []).2 =
      [⟨mk_gt (mk_add (.var va) (.num 1)) (.num 0), 3⟩] ∧
    (replay K0 trailRigidThenLoose dA []).1 = trailRigidThenLoose ∧
    ¬ (∀ t ∈ (replay K0 trailRigidThenLoose dA []).1.m_trail,
        t.m_active = true → t.is_loose = true →
        ∀ k ∈ t.m_subst.keys, ∀ e ∈ (replay K0 trailRigidThenLoose dA []).2,
          k ∉ K0.freeVars e.fml) := by
  decide

/-! ## The model converter and the accumulated substitution -/

/-- Inserting a variable that is not yet a key appends its triple. -/
theorem insert_of_not_mem (S : expr_substitution Term Var Dep) (v : Var) (de : Term) (dp : Dep)
    (h : v ∉ S.keys) : S.insert v de dp = S ++ [(v, de, dp)] := by
  have hany : S.any (fun e => decide (e.1 = v)) = false := by
    simp only [expr_substitution.keys, List.mem_map, not_exists, not_and] at h
    simp only [List.any_eq_false]
    intro e he
    simpa using h e he
  simp [expr_substitution.insert, hany]

/-- A loop whose body inserts each pair into `subst` and adds it to the model
converter keeps the model converter equal to the pairs of `subst`, as long as
the variables inserted are new and distinct. -/
theorem fold_sub (f : converter_state Term Var Dep → Var × Term → converter_state Term Var Dep)
    (hf : ∀ st kv, ∃ X Y, f st kv =
      { st with subst := st.subst.insert kv.1 X Y, mc := st.mc ++ [(kv.1, X)] })
    (kvs : List (Var × Term)) (s : converter_state Term Var Dep)
    (hinv : s.mc = s.subst.sub) (hnd : (s.subst.keys ++ kvs.map Prod.fst).Nodup) :
    (kvs.foldl f s).mc = (kvs.foldl f s).subst.sub ∧
      (kvs.foldl f s).subst.keys = s.subst.keys ++ kvs.map Prod.fst := by
  induction kvs generalizing s with
  | nil => simpa using hinv
  | cons kv kvs ih =>
    simp only [List.foldl_cons]
    obtain ⟨X, Y, e⟩ := hf s kv
    have hnew : kv.1 ∉ s.subst.keys := by
      intro hmem
      exact (List.disjoint_of_nodup_append hnd) hmem (by simp)
    have hins := insert_of_not_mem s.subst kv.1 X Y hnew
    have hkeys : (f s kv).subst.keys = s.subst.keys ++ [kv.1] := by
      rw [e]; simp [hins, expr_substitution.keys]
    have hinv2 : (f s kv).mc = (f s kv).subst.sub := by
      rw [e]; simp [hins, hinv, expr_substitution.sub]
    have hnd2 : ((f s kv).subst.keys ++ kvs.map Prod.fst).Nodup := by
      rw [hkeys]
      simpa using hnd
    obtain ⟨h1, h2⟩ := ih (f s kv) hinv2 hnd2
    refine ⟨h1, ?_⟩
    rw [h2, hkeys]
    simp

/-- The walk of `get_model_converter` keeps the model converter equal to the
pairs of `subst` when no variable is inserted twice. -/
theorem converter_fold_sub (K : Collaborators Term Var Dep) (L : List (entry Term Var Dep))
    (s : converter_state Term Var Dep) (hinv : s.mc = s.subst.sub)
    (hnd : (s.subst.keys ++
      (L.filter (fun t => t.m_active)).flatMap (fun t => t.m_subst.keys)).Nodup) :
    (L.foldl (converter_step K) s).mc = (L.foldl (converter_step K) s).subst.sub := by
  induction L generalizing s with
  | nil => exact hinv
  | cons t rest ih =>
    simp only [List.foldl_cons]
    cases hact : t.m_active with
    | false =>
      have hstep : converter_step K s t = s := by simp [converter_step, hact]
      rw [hstep]
      exact ih s hinv (by simpa [List.filter_cons, hact] using hnd)
    | true =>
      have hnd' : (s.subst.keys ++ (t.m_subst.sub.map Prod.fst ++
          (rest.filter (fun t => t.m_active)).flatMap (fun t => t.m_subst.keys))).Nodup := by
        simpa [List.filter_cons, hact, sub_map_fst] using hnd
      have hnd1 : (s.subst.keys ++ t.m_subst.sub.map Prod.fst).Nodup := by
        rw [← List.append_assoc] at hnd'
        exact List.Nodup.of_append_left hnd'
      cases hfirst : s.first with
      | true =>
        have hstep : converter_step K s t = insert_verbatim K t { s with first := false } := by
          simp [converter_step, hact, hfirst]
        rw [hstep]
        obtain ⟨h1, h2⟩ := fold_sub (verbatim_step K t) (fun _ _ => ⟨_, _, rfl⟩) t.m_subst.sub
          { s with first := false } hinv hnd1
        refine ih _ h1 ?_
        simp only [insert_verbatim]
        rw [h2, List.append_assoc]
        exact hnd'
      | false =>
        have hstep : converter_step K s t = insert_resolved K t s := by
          simp [converter_step, hact, hfirst]
        rw [hstep]
        obtain ⟨h1, h2⟩ := fold_sub (resolved_step K t) (fun _ _ => ⟨_, _, rfl⟩) t.m_subst.sub
          s hinv hnd1
        refine ih _ h1 ?_
        simp only [insert_resolved]
        rw [h2, List.append_assoc]
        exact hnd'

/-- C20 (the model converter and the accumulated substitution agree): when
every variable is defined by at most one active entry, and once in it, the
sequence of (variable, definition) pairs added to the model converter is the
sequence of (variable, definition) bindings of the substitution `S`;
its variables are those of the active entries listed newest entry first, and its
length is the total number of bindings over all active entries. -/
theorem converter_agrees_with_substitution (K : Collaborators Term Var Dep)
    (self : model_reconstruction_trail Term Var Dep)
    (hnd : ((self.m_trail.filter (fun t => t.m_active)).flatMap
      (fun t => t.m_subst.keys)).Nodup) :
    (get_model_converter K self).2 = (get_model_converter_subst K self).sub ∧
    (get_model_converter K self).2.map Prod.fst =
      ((self.m_trail.filter (fun t => t.m_active)).reverse).flatMap
        (fun t => t.m_subst.keys) ∧
    (get_model_converter K self).2.length =
      ((self.m_trail.filter (fun t => t.m_active)).map (fun t => t.m_subst.length)).sum := by
  have hinit : KeysAgree (⟨true, [], []⟩ : converter_state Term Var Dep) := by
    simp [KeysAgree, expr_substitution.keys]
  have hkeys := (converter_fold_keys K self.m_trail.reverse ⟨true, [], []⟩ hinit).1
  simp only [List.map_nil, List.nil_append, List.filter_reverse] at hkeys
  have hperm : List.Perm
      (((self.m_trail.filter (fun t => t.m_active)).reverse).flatMap
        (fun t => t.m_subst.keys))
      ((self.m_trail.filter (fun t => t.m_active)).flatMap (fun t => t.m_subst.keys)) :=
    List.Perm.flatMap_right _ (List.reverse_perm _)
  refine ⟨?_, hkeys, ?_⟩
  · refine converter_fold_sub K self.m_trail.reverse ⟨true, [], []⟩ rfl ?_
    simp only [expr_substitution.keys, List.map_nil, List.nil_append, List.filter_reverse]
    exact hperm.nodup_iff.mpr hnd
  · have hlen := congrArg List.length hkeys
    rw [List.length_map] at hlen
    have hl : (get_model_converter K self).2.length =
        (converter_loop K self.m_trail).mc.length := rfl
    rw [hl, converter_loop, hlen, hperm.length_eq, List.length_flatMap]
    simp [expr_substitution.keys, Function.comp_def]

/-- C20, at a concrete input: Scenario C, the trail [older: x -> y+1,
newer: y -> 2]; the model converter holds (y, 2) and then (x, 2+1), the
bindings of S. -/
theorem converter_agrees_with_substitution_witness :
    (get_model_converter K0 trailC).2 = [(vy, .num 2), (vx, mk_add (.num 2) (.num 1))] ∧
    (get_model_converter K0 trailC).2 = (get_model_converter_subst K0 trailC).sub ∧
    (get_model_converter K0 trailC).2.length = 2 :=
  ⟨by decide, (converter_agrees_with_substitution K0 trailC (by decide)).1,
    (converter_agrees_with_substitution K0 trailC (by decide)).2.2.trans (by decide)⟩

end Proofs3

end ModelReconstructionTrail
